import Mathlib

/-!
Verification of the ButteMAP Requirement Satisfaction Engine.

This file shallowly embeds the core evaluators of `src/app.js` in Lean 4:

* the rule-aware program evaluator (`evaluateProgram` and its helpers
  `findMatchForItem`, `satisfyCountSection`, `satisfyUnitsSection`,
  `evalCrossListUnits`),
* the GE pattern evaluator core (`pickForArea`, `satisfyRequires`, `walk`),
* the prerequisite tree evaluator (`evalPrereqNode`).

Conventions of the embedding:

* JavaScript numbers holding course units are modelled as `Rat`;
  item/atom counters are modelled as `Int` (they mix `Nat` counts with
  `Math.ceil` results in the source).
* JavaScript `Set` objects are modelled as `List String` with
  membership-guarded insertion; `Object` dictionaries keyed by strings are
  modelled as association lists `List (String × _)` with
  insertion-order-preserving upsert, matching JS key enumeration order.
* In-place mutation of `matched` and `chosen` flags on item objects is
  modelled by explicit state passing (`PState`); `while` loops are modelled
  with an explicit fuel argument that over-approximates the number of
  possible iterations (every iteration of the source loops either marks an
  unmatched item or terminates the loop, so any fuel of at least
  one plus the number of items makes the embedding exact).
* External collaborators that the spec declares out of scope (catalog index,
  alias tables, exam-credit tables) enter as function-valued parameters in
  the contexts `PCtx` and `GCtx`; everything algorithmic is translated from
  the source.
* Human-readable missing-requirement strings are modelled by the structured
  type `MissingReason` carrying the same data the source formats.
* The name `disciplineFromPrefix` of the source is rendered here as
  `disciplineOfCode`, and the source helper `norm` is rendered as `normSp`,
  for hygiene reasons only; the bodies are faithful.
-/

namespace ButteMAP

/-! ## String utilities (`normalizeCode`, `norm`, `prefixOf` of the source).

String processing is done on `List Char` so that all functions reduce in the
kernel.  `isWsChar` models the JavaScript whitespace class on the characters
that occur in catalog data. -/

def isWsChar (c : Char) : Bool :=
  c = ' ' || c = '\t' || c = '\n' || c = '\r'

/-- Collapse every run of whitespace to a single space; the `Bool` argument
records whether the previous character was whitespace
(JS `replace(/\s+/g, ' ')`). -/
def collapseWsAux : Bool → List Char → List Char
  | _, [] => []
  | prevWs, c :: cs =>
    if isWsChar c then
      if prevWs then collapseWsAux true cs
      else ' ' :: collapseWsAux true cs
    else c :: collapseWsAux false cs

def collapseWs (l : List Char) : List Char := collapseWsAux false l

/-- JS `String.prototype.trim`. -/
def trimChars (l : List Char) : List Char :=
  ((l.dropWhile isWsChar).reverse.dropWhile isWsChar).reverse

def upperChars (l : List Char) : List Char := l.map Char.toUpper

def upperStr (s : String) : String := ⟨upperChars s.data⟩

def lowerStr (s : String) : String := ⟨s.data.map Char.toLower⟩

/-- Source `normalizeCode`: uppercase, replace every dash by a space,
collapse whitespace runs, trim; falsy input maps to the empty string. -/
def normalizeCode (raw : String) : String :=
  if raw = "" then ""
  else ⟨trimChars (collapseWs ((upperChars raw.data).map
    (fun c => if c = '-' then ' ' else c)))⟩

/-- Source `norm` of the program evaluator:
`s.replace(/\s+/g, ' ').trim().toUpperCase()`. -/
def normSp (s : String) : String :=
  ⟨upperChars (trimChars (collapseWs s.data))⟩

/-- Source `String(opt.code).trim().toUpperCase()` used by
`evalCrossListUnits` (note: no whitespace collapsing there). -/
def trimUpper (s : String) : String :=
  ⟨upperChars (trimChars s.data)⟩

/-- Source `prefixOf`: `code.split(' ')[0]`. -/
def prefixOf (code : String) : String :=
  ⟨code.data.takeWhile (fun c => c ≠ ' ')⟩

/-- First token of `s.split(/\s+/)`; a string starting with whitespace has
first token `""`, as in JavaScript. -/
def firstWsToken (l : List Char) : List Char :=
  match l with
  | [] => []
  | c :: _ => if isWsChar c then [] else l.takeWhile (fun c => !(isWsChar c))

def isUpperAZ (c : Char) : Bool := 'A' ≤ c && c ≤ 'Z'

/-! ## Generic list helpers. -/

/-- Stable insertion used by `stableSortBy`. -/
def orderedInsert (le : α → α → Bool) (x : α) : List α → List α
  | [] => [x]
  | y :: ys => if le x y then x :: y :: ys else y :: orderedInsert le x ys

/-- Stable sort.  `le a b = true` means the comparator of the source returns
a non-positive value on `(a, b)`; JavaScript `Array.prototype.sort` is
stable, and a stable sort for a total preorder is unique, so this insertion
sort computes the same list as the source. -/
def stableSortBy (le : α → α → Bool) : List α → List α
  | [] => []
  | x :: xs => orderedInsert le x (stableSortBy le xs)

/-- Deduplication keeping first occurrences (JS `new Set([...])` iteration
order). -/
def dedupKeepFirst [DecidableEq α] : List α → List α
  | [] => []
  | x :: xs => if x ∈ xs then
      x :: (dedupKeepFirst xs).filter (fun y => y ≠ x)
    else x :: dedupKeepFirst xs

/-- Modify the element at position `i`, if any. -/
def listModify (i : ℕ) (f : α → α) : List α → List α
  | [] => []
  | x :: xs => match i with
    | 0 => f x :: xs
    | Nat.succ j => x :: listModify j f xs

/-- Membership-guarded insertion modelling `Set.prototype.add`. -/
def usedAdd (used : List String) (c : String) : List String :=
  if c ∈ used then used else used ++ [c]

/-- Insertion-order-preserving upsert for association lists, modelling
assignment to a string key of a JS object. -/
def upsert [DecidableEq κ] (k : κ) (v : α) : List (κ × α) → List (κ × α)
  | [] => [(k, v)]
  | (k', v') :: rest =>
    if k' = k then (k, v) :: rest else (k', v') :: upsert k v rest

def lookupD [DecidableEq κ] (l : List (κ × α)) (k : κ) (d : α) : α :=
  match l.lookup k with
  | some v => v
  | none => d

/-- Append `v` to the list stored at key `k`, creating the key if missing
(JS `(alloc[k] ||= []).push(v)`). -/
def pushAt [DecidableEq κ] (l : List (κ × List α)) (k : κ) (v : α) :
    List (κ × List α) :=
  upsert k (lookupD l k [] ++ [v]) l

def isSubSeq [DecidableEq α] (pat : List α) : List α → Bool
  | [] => pat.isEmpty
  | c :: cs => pat.isPrefixOf (c :: cs) || isSubSeq pat cs

/-- Rational floor as used for `Math.floor`; `Int.fdiv` floors. -/
def ratFloor (q : ℚ) : ℤ := Int.fdiv q.num (q.den : ℤ)

/-- Rational ceiling as used for `Math.ceil`. -/
def ratCeil (q : ℚ) : ℤ := -(Int.fdiv (-q.num) (q.den : ℤ))

/-! ## External collaborator context for the program evaluator.

The spec places code normalization tables, the catalog index and exam tables
outside the core; they are function parameters here. -/

structure PCtx where
  aliasMap : String → Option String
  prefAlias : String → Option String
  courseUnits : String → Option ℚ

/-- Source `canonicalizeCode`: normalize, then the alias table, else the
normalized code itself. -/
def canonicalizeCode (ctx : PCtx) (code : String) : String :=
  let n := normalizeCode code
  match ctx.aliasMap n with
  | some c => c
  | none => n

/-- Source `disciplineFromPrefix`: canonicalize and uppercase the code, take
the first whitespace-separated token, strip non-A-Z characters, then map
through the prefix alias table. -/
def disciplineOfCode (ctx : PCtx) (code : String) : String :=
  let canon := upperStr (canonicalizeCode ctx code)
  let p : String := ⟨(firstWsToken canon.data).filter isUpperAZ⟩
  match ctx.prefAlias p with
  | some q => q
  | none => p

/-! ## Data model of catalog inputs (JSON shapes of the source). -/

structure OptIn where
  code : String
  units : Option ℚ
deriving DecidableEq

structure ItemIn where
  any_of : List OptIn
deriving DecidableEq

structure RuleIn where
  type : Option String
  min : Option ℕ
  max : Option ℕ
  min_units : Option ℚ
  min_disciplines : Option ℕ
  allow_from : Option (List String)
  per_list_min_units : Option (List (String × ℚ))
deriving DecidableEq

def ruleAll : RuleIn := ⟨some "ALL", none, none, none, none, none, none⟩

structure SectionIn where
  name : String
  rule : Option RuleIn
  items : List ItemIn
deriving DecidableEq

structure CrossRule where
  type : String
  applies_to : List String
  per_list_min_units : List (String × ℚ)
  min_units_total : ℚ
deriving DecidableEq

structure Detail where
  sections : List SectionIn
  cross_list_rules : List CrossRule
deriving DecidableEq

/-- Source `ruleTypeOf`: `(t || 'ALL').toUpperCase()`. -/
def ruleTypeOf (t : Option String) : String :=
  upperStr (match t with
    | none => "ALL"
    | some s => if s = "" then "ALL" else s)

/-- Source `sectionIsInCrossList`. -/
def sectionIsInCrossList (detail : Detail) (sectionName : String) : Bool :=
  detail.cross_list_rules.any
    (fun r => r.type = "CROSS_LIST_UNITS" && sectionName ∈ r.applies_to)

/-! ## Per-evaluation working state (indexed items with `matched`/`chosen`).

The source builds these via `indexSectionItems` and mutates them in place;
here they live in `PState`. -/

structure Opt where
  code : String
  units : ℚ
deriving DecidableEq

structure EItem where
  options : List Opt
  matched : Bool
  chosen : Option Opt
deriving DecidableEq

structure ESec where
  name : String
  rule : RuleIn
  items : List EItem
deriving DecidableEq

instance : Inhabited EItem := ⟨⟨[], false, none⟩⟩

instance : Inhabited ESec := ⟨⟨"", ruleAll, []⟩⟩

/-- Source `indexSectionItems` (units default: the catalog entry of the
canonicalized code, else 0). -/
def indexSectionItems (ctx : PCtx) (sec : SectionIn) : List EItem :=
  sec.items.map (fun it =>
    { options := it.any_of.map (fun o =>
        let code := normSp o.code
        let units : ℚ := match o.units with
          | some u => u
          | none =>
            match ctx.courseUnits (canonicalizeCode ctx code) with
            | some u => u
            | none => 0
        ⟨code, units⟩)
      matched := false
      chosen := none })

/-- Source `findMatchForItem`: first option whose code is taken and not yet
consumed. -/
def findMatchForItem (item : EItem) (taken used : List String) : Option Opt :=
  item.options.find? (fun o => o.code ∈ taken && o.code ∉ used)

structure PState where
  secs : List ESec
  used : List String
deriving DecidableEq

def secAt (secs : List ESec) (si : ℕ) : ESec :=
  match secs.get? si with
  | some s => s
  | none => default

def getSec (st : PState) (si : ℕ) : ESec := secAt st.secs si

def itemAt (items : List EItem) (i : ℕ) : EItem :=
  match items.get? i with
  | some it => it
  | none => default

def getItem (st : PState) (si i : ℕ) : EItem := itemAt (getSec st si).items i

def markItemFn (pick : Opt) (it : EItem) : EItem :=
  { it with matched := true, chosen := some pick }

def markSecFn (i : ℕ) (pick : Opt) (s : ESec) : ESec :=
  { s with items := listModify i (markItemFn pick) s.items }

/-- Set `matched`/`chosen` on item `i` of section `si` and consume the code
of the picked option. -/
def markAndUse (st : PState) (si i : ℕ) (pick : Opt) : PState :=
  ⟨listModify si (markSecFn i pick) st.secs, usedAdd st.used pick.code⟩

/-- Index of the section a pool name resolves to.  `poolsByList` of the
source maps each name to the items of the LAST section bearing it. -/
def poolIdx (secs : List ESec) (name : String) : Option ℕ :=
  (List.range secs.length).foldl
    (fun acc i => if (secAt secs i).name = name then some i else acc) none

/-- A chosen course in a result row: code, units and the pool it came from
(the `from` field of the source). -/
structure Pick where
  code : String
  units : ℚ
  fromName : String
deriving DecidableEq

/-! ## `satisfyCountSection`.

The source walks the section's own items in declaration order (stopping at
`max`), then borrows unmatched items from each `allow_from` pool in listed
order until `min` is reached. -/

def countLocalPass (taken : List String) (si maxN : ℕ) (secName : String) :
    List ℕ → PState → List Pick → PState × List Pick
  | [], st, ch => (st, ch)
  | i :: rest, st, ch =>
    if maxN ≤ ch.length then (st, ch)
    else
      match findMatchForItem (getItem st si i) taken st.used with
      | some pick =>
        countLocalPass taken si maxN secName rest (markAndUse st si i pick)
          (ch ++ [⟨pick.code, pick.units, secName⟩])
      | none => countLocalPass taken si maxN secName rest st ch

def countBorrowPool (taken : List String) (needN pi : ℕ) (listName : String) :
    List ℕ → PState → List Pick → PState × List Pick
  | [], st, ch => (st, ch)
  | i :: rest, st, ch =>
    if needN ≤ ch.length then (st, ch)
    else if (getItem st pi i).matched then
      countBorrowPool taken needN pi listName rest st ch
    else
      match findMatchForItem (getItem st pi i) taken st.used with
      | some pick =>
        countBorrowPool taken needN pi listName rest (markAndUse st pi i pick)
          (ch ++ [⟨pick.code, pick.units, listName⟩])
      | none => countBorrowPool taken needN pi listName rest st ch

def countBorrowLists (taken : List String) (needN : ℕ) :
    List String → PState → List Pick → PState × List Pick
  | [], st, ch => (st, ch)
  | L :: rest, st, ch =>
    if needN ≤ ch.length then (st, ch)
    else
      match poolIdx st.secs L with
      | none => countBorrowLists taken needN rest st ch
      | some pi =>
        let p := countBorrowPool taken needN pi L
          (List.range (getSec st pi).items.length) st ch
        countBorrowLists taken needN rest p.1 p.2

structure CountOut where
  chosen : List Pick
  need : ℕ
  maxN : ℕ
deriving DecidableEq

/-- Source `satisfyCountSection`; `need = rule.min ?? 1`,
`max = rule.max ?? need`. -/
def satisfyCountSection (taken : List String) (si : ℕ) (st : PState) :
    PState × CountOut :=
  let sec := getSec st si
  let need := sec.rule.min.getD 1
  let maxN := sec.rule.max.getD need
  let p1 := countLocalPass taken si maxN sec.name
    (List.range sec.items.length) st []
  let allow := sec.rule.allow_from.getD []
  let p2 := countBorrowLists taken need allow p1.1 p1.2
  (p2.1, ⟨p2.2, need, maxN⟩)

/-- Report row of a COUNT section: the source stores the chosen courses and
either an empty missing list or the count still missing. -/
structure CountRow where
  sectionName : String
  rule : RuleIn
  chosen : List Pick
  stillMissing : ℕ
deriving DecidableEq

/-- One COUNT section inside `evaluateProgram`: atoms required grow by
`need`, atoms met grow by `min(chosenCount, need)`. -/
def countPhaseStep (taken : List String) (si : ℕ) (st : PState) :
    PState × ℤ × ℤ × CountRow :=
  let sec := getSec st si
  let need := sec.rule.min.getD 1
  let p := satisfyCountSection taken si st
  (p.1, (need : ℤ), min (p.2.chosen.length : ℤ) (need : ℤ),
    ⟨sec.name, sec.rule, p.2.chosen,
      if need ≤ p.2.chosen.length then 0 else need - p.2.chosen.length⟩)

theorem countLocalPass_length_le (taken : List String) (si maxN : ℕ)
    (secName : String) :
    ∀ (idx : List ℕ) (st : PState) (ch : List Pick),
      ch.length ≤ maxN →
      ((countLocalPass taken si maxN secName idx st ch).2).length ≤ maxN := by
  intro idx
  induction idx with
  | nil => intro st ch h; simpa [countLocalPass] using h
  | cons i rest ih =>
    intro st ch h
    by_cases hstop : maxN ≤ ch.length
    · simpa [countLocalPass, hstop] using h
    · have hlt : ch.length < maxN := Nat.lt_of_not_le hstop
      cases hfind : findMatchForItem (getItem st si i) taken st.used with
      | some pick =>
        have : (ch ++ [(⟨pick.code, pick.units, secName⟩ : Pick)]).length ≤ maxN := by
          simpa [List.length_append] using Nat.succ_le_of_lt hlt
        simpa [countLocalPass, hstop, hfind] using
          ih (markAndUse st si i pick) (ch ++ [⟨pick.code, pick.units, secName⟩]) this
      | none =>
        simpa [countLocalPass, hstop, hfind] using ih st ch h

theorem countBorrowPool_length_le (taken : List String) (needN pi maxN : ℕ)
    (listName : String) (hnm : needN ≤ maxN) :
    ∀ (idx : List ℕ) (st : PState) (ch : List Pick),
      ch.length ≤ maxN →
      ((countBorrowPool taken needN pi listName idx st ch).2).length ≤ maxN := by
  intro idx
  induction idx with
  | nil => intro st ch h; simpa [countBorrowPool] using h
  | cons i rest ih =>
    intro st ch h
    by_cases hstop : needN ≤ ch.length
    · simpa [countBorrowPool, hstop] using h
    · have hlt : ch.length < needN := Nat.lt_of_not_le hstop
      by_cases hm : (getItem st pi i).matched
      · simpa [countBorrowPool, hstop, hm] using ih st ch h
      · cases hfind : findMatchForItem (getItem st pi i) taken st.used with
        | some pick =>
          have : (ch ++ [(⟨pick.code, pick.units, listName⟩ : Pick)]).length ≤ maxN := by
            have : ch.length + 1 ≤ needN := Nat.succ_le_of_lt hlt
            simpa [List.length_append] using le_trans this hnm
          simpa [countBorrowPool, hstop, hm, hfind] using
            ih (markAndUse st pi i pick) (ch ++ [⟨pick.code, pick.units, listName⟩]) this
        | none =>
          simpa [countBorrowPool, hstop, hm, hfind] using ih st ch h

theorem countBorrowLists_length_le (taken : List String) (needN maxN : ℕ)
    (hnm : needN ≤ maxN) :
    ∀ (ls : List String) (st : PState) (ch : List Pick),
      ch.length ≤ maxN →
      ((countBorrowLists taken needN ls st ch).2).length ≤ maxN := by
  intro ls
  induction ls with
  | nil => intro st ch h; simpa [countBorrowLists] using h
  | cons L rest ih =>
    intro st ch h
    by_cases hstop : needN ≤ ch.length
    · simpa [countBorrowLists, hstop] using h
    · cases hp : poolIdx st.secs L with
      | none => simpa [countBorrowLists, hstop, hp] using ih st ch h
      | some pi =>
        have h1 := countBorrowPool_length_le taken needN pi maxN L hnm
          (List.range (getSec st pi).items.length) st ch h
        simpa [countBorrowLists, hstop, hp] using
          ih (countBorrowPool taken needN pi L
                (List.range (getSec st pi).items.length) st ch).1
             (countBorrowPool taken needN pi L
                (List.range (getSec st pi).items.length) st ch).2 h1

/-! ## `satisfyUnitsSection`.

The source allocates in four phases: (a) a distinct-discipline loop when
`min_disciplines > 0`, else (b) a local pass until `min_units`; then
(c) a per-`allow_from`-list loop enforcing `per_list_min_units`; then
(d) a global top-up loop until `min_units`.  Unmet constraints are reported
as human-readable strings; `MissingReason` carries the same data. -/

inductive MissingReason where
  | disciplines (need cur : ℕ)
  | perList (amount : ℚ) (listName : String)
  | overall (amount : ℚ)
deriving DecidableEq

structure UnitsOut where
  chosen : List Pick
  gotUnits : ℚ
  missing : List MissingReason
  minUnits : ℚ
deriving DecidableEq

/-- First element the generators `availableFromSection`/`availableFromList`
of the source would yield in section `si` that also passes the filter of
`pickWithFilter`: the first unmatched item with a match whose pick satisfies
`f`. -/
def findAvailIn (taken : List String) (f : Opt → Bool) (st : PState) (si : ℕ) :
    List ℕ → Option (ℕ × Opt)
  | [] => none
  | i :: rest =>
    if (getItem st si i).matched then findAvailIn taken f st si rest
    else
      match findMatchForItem (getItem st si i) taken st.used with
      | some pick =>
        if f pick then some (i, pick) else findAvailIn taken f st si rest
      | none => findAvailIn taken f st si rest

/-- Consume the first available filtered pick of section `si`, extending the
chosen list and the unit total (shared body of `pickOneFromList` and
`pickWithFilter` of the source). -/
def pickFromSecList (taken : List String) (f : Opt → Bool) (si : ℕ)
    (fromName : String) (st : PState) (ch : List Pick) (got : ℚ) :
    Option (PState × List Pick × ℚ) :=
  match findAvailIn taken f st si (List.range (getSec st si).items.length) with
  | none => none
  | some (i, pick) =>
    some (markAndUse st si i pick,
      ch ++ [⟨pick.code, pick.units, fromName⟩], got + pick.units)

def pickWithFilterLists (taken : List String) (f : Opt → Bool) :
    List String → PState → List Pick → ℚ → Option (PState × List Pick × ℚ)
  | [], _, _, _ => none
  | L :: rest, st, ch, got =>
    match poolIdx st.secs L with
    | none => pickWithFilterLists taken f rest st ch got
    | some pi =>
      match pickFromSecList taken f pi L st ch got with
      | some r => some r
      | none => pickWithFilterLists taken f rest st ch got

/-- Source `pickWithFilter`: scan the section's own items, then each
`allow_from` pool in order. -/
def pickWithFilter (taken : List String) (f : Opt → Bool) (si : ℕ)
    (secName : String) (allow : List String) (st : PState) (ch : List Pick)
    (got : ℚ) : Option (PState × List Pick × ℚ) :=
  match pickFromSecList taken f si secName st ch got with
  | some r => some r
  | none => pickWithFilterLists taken f allow st ch got

/-- Phase (a) of the source: while fewer than `min_disciplines` distinct
disciplines are represented, pick a match from a not-yet-represented
discipline; break on failure or stall.  Every successful iteration marks one
previously unmatched item, so fuel `totalItems + 1` makes this exact. -/
def unitsDiscLoop (ctx : PCtx) (taken : List String) (si : ℕ) (secName : String)
    (allow : List String) (minU : ℚ) (minD : ℕ) :
    ℕ → PState → List Pick → ℚ → List String → PState × List Pick × ℚ
  | 0, st, ch, got, _ => (st, ch, got)
  | Nat.succ fuel, st, ch, got, dset =>
    if dset.length < minD ∧ (got < minU ∨ dset.length < minD) then
      let prevSize := dset.length
      match pickWithFilter taken
          (fun pick => !(decide (disciplineOfCode ctx pick.code ∈ dset)))
          si secName allow st ch got with
      | none => (st, ch, got)
      | some (st', ch', got') =>
        let dset' := dedupKeepFirst (ch'.map (fun c => disciplineOfCode ctx c.code))
        if dset'.length = prevSize then (st', ch', got')
        else unitsDiscLoop ctx taken si secName allow minU minD fuel st' ch' got' dset'
    else (st, ch, got)

/-- Phase (b) of the source: walk local items in order until `min_units`. -/
def unitsLocalPass (taken : List String) (si : ℕ) (secName : String) (minU : ℚ) :
    List ℕ → PState → List Pick → ℚ → PState × List Pick × ℚ
  | [], st, ch, got => (st, ch, got)
  | i :: rest, st, ch, got =>
    if minU ≤ got then (st, ch, got)
    else
      match findMatchForItem (getItem st si i) taken st.used with
      | some pick =>
        unitsLocalPass taken si secName minU rest (markAndUse st si i pick)
          (ch ++ [⟨pick.code, pick.units, secName⟩]) (got + pick.units)
      | none => unitsLocalPass taken si secName minU rest st ch got

def sumFromList (ch : List Pick) (L : String) : ℚ :=
  (ch.filter (fun c => c.fromName = L)).foldl (fun t c => t + c.units) 0

/-- Phase (c) inner loop of the source: while the units chosen from list `L`
fall short of its per-list minimum, consume the next available match of that
pool (`pickOneFromList`). -/
def unitsPerListLoop (taken : List String) (L : String) (need : ℚ) :
    ℕ → PState → List Pick → ℚ → PState × List Pick × ℚ
  | 0, st, ch, got => (st, ch, got)
  | Nat.succ fuel, st, ch, got =>
    if sumFromList ch L < need then
      match poolIdx st.secs L with
      | none => (st, ch, got)
      | some pi =>
        match pickFromSecList taken (fun _ => true) pi L st ch got with
        | none => (st, ch, got)
        | some (st', ch', got') => unitsPerListLoop taken L need fuel st' ch' got'
    else (st, ch, got)

def unitsPerListsPhase (taken : List String) (perListMin : List (String × ℚ))
    (fuel : ℕ) :
    List String → PState → List Pick → ℚ → PState × List Pick × ℚ
  | [], st, ch, got => (st, ch, got)
  | L :: rest, st, ch, got =>
    let need := lookupD perListMin L 0
    let r := unitsPerListLoop taken L need fuel st ch got
    unitsPerListsPhase taken perListMin fuel rest r.1 r.2.1 r.2.2

/-- Phase (d) of the source: top up to `min_units` from any local or
`allow_from` source. -/
def unitsTopUpLoop (taken : List String) (si : ℕ) (secName : String)
    (allow : List String) (minU : ℚ) :
    ℕ → PState → List Pick → ℚ → PState × List Pick × ℚ
  | 0, st, ch, got => (st, ch, got)
  | Nat.succ fuel, st, ch, got =>
    if got < minU then
      match pickWithFilter taken (fun _ => true) si secName allow st ch got with
      | none => (st, ch, got)
      | some (st', ch', got') =>
        unitsTopUpLoop taken si secName allow minU fuel st' ch' got'
    else (st, ch, got)

def totalItems (st : PState) : ℕ := (st.secs.map (fun s => s.items.length)).sum

/-- The missing-constraint block at the end of the source
`satisfyUnitsSection`: one entry per unmet sub-constraint, in source order
(disciplines, per-list minima, overall units). -/
def unitsMissing (ctx : PCtx) (chosen : List Pick) (got minU : ℚ) (minD : ℕ)
    (allow : List String) (perListMin : List (String × ℚ)) :
    List MissingReason :=
  let m1 : List MissingReason :=
    if 0 < minD then
      let ds := dedupKeepFirst (chosen.map (fun c => disciplineOfCode ctx c.code))
      if ds.length < minD then [.disciplines minD ds.length] else []
    else []
  let m2 : List MissingReason :=
    allow.filterMap (fun L =>
      let need := lookupD perListMin L 0
      let hv := sumFromList chosen L
      if hv < need then some (.perList (need - hv) L) else none)
  let m3 : List MissingReason := if got < minU then [.overall (minU - got)] else []
  m1 ++ m2 ++ m3

/-- Source `satisfyUnitsSection`. -/
def satisfyUnitsSection (ctx : PCtx) (taken : List String) (si : ℕ)
    (st : PState) : PState × UnitsOut :=
  let sec := getSec st si
  let minU := sec.rule.min_units.getD 0
  let minD := sec.rule.min_disciplines.getD 0
  let allow := sec.rule.allow_from.getD []
  let perListMin := sec.rule.per_list_min_units.getD []
  let fuel := totalItems st + 1
  let r1 : PState × List Pick × ℚ :=
    if 0 < minD then
      unitsDiscLoop ctx taken si sec.name allow minU minD fuel st [] 0 []
    else
      unitsLocalPass taken si sec.name minU (List.range sec.items.length) st [] 0
  let r2 := unitsPerListsPhase taken perListMin fuel allow r1.1 r1.2.1 r1.2.2
  let r3 := unitsTopUpLoop taken si sec.name allow minU fuel r2.1 r2.2.1 r2.2.2
  let chosen := r3.2.1
  let got := r3.2.2
  (r3.1, ⟨chosen, got, unitsMissing ctx chosen got minU minD allow perListMin, minU⟩)

structure UnitsRow where
  sectionName : String
  rule : RuleIn
  chosen : List Pick
  gotUnits : ℚ
  missing : List MissingReason
deriving DecidableEq

/-- Average unit size of the chosen courses as computed by the source:
`chosen.reduce((sum, c) => sum + (c.units || 3), 0) / chosen.length`,
defaulting to 3 when nothing is chosen (a falsy unit count of 0 also
contributes 3). -/
def unitsAvg (chosen : List Pick) : ℚ :=
  if chosen.length = 0 then 3
  else (chosen.foldl (fun t c => t + (if c.units = 0 then 3 else c.units)) 0) /
    (chosen.length : ℚ)

/-- Estimated course count a UNITS section stands for:
`Math.ceil(minUnits / avgUnits)`. -/
def unitsEstimate (minU : ℚ) (chosen : List Pick) : ℤ :=
  ratCeil (minU / unitsAvg chosen)

/-- One UNITS section inside `evaluateProgram`: atoms required grow by the
estimated course count, atoms met grow by `min(chosenCount, estimate)`. -/
def unitsPhaseStep (ctx : PCtx) (taken : List String) (si : ℕ) (st : PState) :
    PState × ℤ × ℤ × UnitsRow :=
  let sec := getSec st si
  let r := satisfyUnitsSection ctx taken si st
  let est := unitsEstimate r.2.minUnits r.2.chosen
  (r.1, est, min (r.2.chosen.length : ℤ) est,
    ⟨sec.name, sec.rule, r.2.chosen, r.2.gotUnits, r.2.missing⟩)

/-! ## Invariants of the UNITS allocator used for claim C7. -/

/-- The overshoot bound: the unit total is within the minimum, or exceeds it
by at most the unit value of one chosen course. -/
def UnitsInv (minU got : ℚ) (ch : List Pick) : Prop :=
  got ≤ minU ∨ ∃ c ∈ ch, got ≤ minU + c.units

/-- Every option of every item of every section carries nonnegative units. -/
def NonnegSt (st : PState) : Prop :=
  ∀ s ∈ st.secs, ∀ it ∈ s.items, ∀ o ∈ it.options, (0:ℚ) ≤ o.units

def ChNonneg (ch : List Pick) : Prop := ∀ c ∈ ch, (0:ℚ) ≤ c.units

instance (minU got : ℚ) (ch : List Pick) : Decidable (UnitsInv minU got ch) := by
  unfold UnitsInv; infer_instance

instance (st : PState) : Decidable (NonnegSt st) := by
  unfold NonnegSt; infer_instance

instance (ch : List Pick) : Decidable (ChNonneg ch) := by
  unfold ChNonneg; infer_instance

theorem listModify_forall {α : Type _} {P : α → Prop} (f : α → α)
    (hf : ∀ x, P x → P (f x)) :
    ∀ (l : List α) (i : ℕ), (∀ x ∈ l, P x) → ∀ x ∈ listModify i f l, P x := by
  intro l
  induction l with
  | nil => intro i h x hx; simp [listModify] at hx
  | cons a as ih =>
    intro i h x hx
    cases i with
    | zero =>
      simp only [listModify] at hx
      rcases List.mem_cons.mp hx with rfl | hx
      · exact hf a (h a (by simp))
      · exact h x (by simp [hx])
    | succ j =>
      simp only [listModify] at hx
      rcases List.mem_cons.mp hx with rfl | hx
      · exact h _ (by simp)
      · exact ih j (fun y hy => h y (by simp [hy])) x hx

theorem markAndUse_nonneg {st : PState} {si i : ℕ} {pick : Opt}
    (h : NonnegSt st) : NonnegSt (markAndUse st si i pick) := by
  intro s hs it hit o ho
  have hit' : ∀ x : EItem,
      (∀ o ∈ x.options, (0:ℚ) ≤ o.units) →
      ∀ o ∈ (markItemFn pick x).options, (0:ℚ) ≤ o.units := by
    intro x hx
    simpa [markItemFn] using hx
  have hsec : ∀ x : ESec,
      (∀ it ∈ x.items, ∀ o ∈ it.options, (0:ℚ) ≤ o.units) →
      ∀ it ∈ (markSecFn i pick x).items, ∀ o ∈ it.options, (0:ℚ) ≤ o.units := by
    intro x hx
    simpa [markSecFn] using
      listModify_forall (markItemFn pick) hit' x.items i hx
  have hall := listModify_forall (markSecFn i pick) hsec st.secs si h
  have hs' : s ∈ listModify si (markSecFn i pick) st.secs := by
    simpa [markAndUse] using hs
  exact hall s hs' it hit o ho

theorem getSec_cases (st : PState) (si : ℕ) :
    getSec st si ∈ st.secs ∨ getSec st si = default := by
  unfold getSec secAt
  cases h : st.secs.get? si with
  | some s => exact Or.inl (by simpa [h] using List.get?_mem h)
  | none => exact Or.inr (by simp [h])

theorem getItem_cases (st : PState) (si i : ℕ) :
    (getSec st si ∈ st.secs ∧ getItem st si i ∈ (getSec st si).items) ∨
      getItem st si i = default := by
  rcases getSec_cases st si with hmem | hdef
  · unfold getItem itemAt
    cases h : (getSec st si).items.get? i with
    | some it => exact Or.inl ⟨hmem, by simpa [h] using List.get?_mem h⟩
    | none => exact Or.inr (by simp [h])
  · unfold getItem itemAt
    rw [hdef]
    right
    rfl

theorem pick_nonneg {st : PState} {si i : ℕ} {taken used : List String}
    {pick : Opt} (hnn : NonnegSt st)
    (hfind : findMatchForItem (getItem st si i) taken used = some pick) :
    (0:ℚ) ≤ pick.units := by
  have hmem : pick ∈ (getItem st si i).options :=
    List.mem_of_find?_eq_some hfind
  rcases getItem_cases st si i with ⟨hsec, hit⟩ | hdef
  · exact hnn _ hsec _ hit _ hmem
  · rw [hdef] at hmem
    simp [default] at hmem

theorem findAvailIn_spec {taken : List String} {f : Opt → Bool} {st : PState}
    {si : ℕ} :
    ∀ {idx : List ℕ} {i : ℕ} {pick : Opt},
      findAvailIn taken f st si idx = some (i, pick) →
      findMatchForItem (getItem st si i) taken st.used = some pick := by
  intro idx
  induction idx with
  | nil => intro i pick h; simp [findAvailIn] at h
  | cons j rest ih =>
    intro i pick h
    by_cases hm : (getItem st si j).matched
    · exact ih (by simpa [findAvailIn, hm] using h)
    · cases hf : findMatchForItem (getItem st si j) taken st.used with
      | some p =>
        by_cases hfp : f p
        · have : (j, p) = (i, pick) := by
            simpa [findAvailIn, hm, hf, hfp] using h
          cases this; exact hf
        · exact ih (by simpa [findAvailIn, hm, hf, hfp] using h)
      | none => exact ih (by simpa [findAvailIn, hm, hf] using h)

theorem pickFromSecList_spec {taken : List String} {f : Opt → Bool} {si : ℕ}
    {nm : String} {st : PState} {ch : List Pick} {got : ℚ}
    {r : PState × List Pick × ℚ} (hnn : NonnegSt st)
    (h : pickFromSecList taken f si nm st ch got = some r) :
    NonnegSt r.1 ∧ ∃ p : Pick, (0:ℚ) ≤ p.units ∧ r.2.1 = ch ++ [p] ∧
      r.2.2 = got + p.units := by
  unfold pickFromSecList at h
  cases hfa : findAvailIn taken f st si
      (List.range (getSec st si).items.length) with
  | none => rw [hfa] at h; exact absurd h (by simp)
  | some ip =>
    obtain ⟨i, pick⟩ := ip
    rw [hfa] at h
    have hr : r = (markAndUse st si i pick,
        ch ++ [⟨pick.code, pick.units, nm⟩], got + pick.units) := by
      simpa using h.symm
    subst hr
    refine ⟨markAndUse_nonneg hnn, ⟨pick.code, pick.units, nm⟩, ?_, rfl, rfl⟩
    exact pick_nonneg hnn (findAvailIn_spec hfa)

theorem pickWithFilterLists_spec {taken : List String} {f : Opt → Bool} :
    ∀ {allow : List String} {st : PState} {ch : List Pick} {got : ℚ}
      {r : PState × List Pick × ℚ}, NonnegSt st →
      pickWithFilterLists taken f allow st ch got = some r →
      NonnegSt r.1 ∧ ∃ p : Pick, (0:ℚ) ≤ p.units ∧ r.2.1 = ch ++ [p] ∧
        r.2.2 = got + p.units := by
  intro allow
  induction allow with
  | nil => intro st ch got r _ h; simp [pickWithFilterLists] at h
  | cons L rest ih =>
    intro st ch got r hnn h
    cases hp : poolIdx st.secs L with
    | none => exact ih hnn (by simpa [pickWithFilterLists, hp] using h)
    | some pi =>
      cases hx : pickFromSecList taken f pi L st ch got with
      | some r' =>
        have : r' = r := by simpa [pickWithFilterLists, hp, hx] using h
        subst this
        exact pickFromSecList_spec hnn hx
      | none => exact ih hnn (by simpa [pickWithFilterLists, hp, hx] using h)

theorem pickWithFilter_spec {taken : List String} {f : Opt → Bool} {si : ℕ}
    {secName : String} {allow : List String} {st : PState} {ch : List Pick}
    {got : ℚ} {r : PState × List Pick × ℚ} (hnn : NonnegSt st)
    (h : pickWithFilter taken f si secName allow st ch got = some r) :
    NonnegSt r.1 ∧ ∃ p : Pick, (0:ℚ) ≤ p.units ∧ r.2.1 = ch ++ [p] ∧
      r.2.2 = got + p.units := by
  unfold pickWithFilter at h
  cases hx : pickFromSecList taken f si secName st ch got with
  | some r' =>
    rw [hx] at h
    have : r' = r := by simpa using h
    subst this
    exact pickFromSecList_spec hnn hx
  | none =>
    rw [hx] at h
    exact pickWithFilterLists_spec hnn h

theorem unitsInv_extend {minU got : ℚ} (ch : List Pick) (p : Pick)
    (hlt : got < minU) : UnitsInv minU (got + p.units) (ch ++ [p]) := by
  right
  exact ⟨p, by simp, by linarith⟩

theorem unitsInv_mono {minU got : ℚ} {ch ch' : List Pick}
    (hsub : ∀ c ∈ ch, c ∈ ch') (h : UnitsInv minU got ch) :
    UnitsInv minU got ch' := by
  rcases h with h | ⟨c, hc, hle⟩
  · exact Or.inl h
  · exact Or.inr ⟨c, hsub c hc, hle⟩

theorem unitsLocalPass_spec {taken : List String} {si : ℕ} {secName : String}
    {minU : ℚ} :
    ∀ (idx : List ℕ) (st : PState) (ch : List Pick) (got : ℚ),
      NonnegSt st → UnitsInv minU got ch → ChNonneg ch →
      NonnegSt (unitsLocalPass taken si secName minU idx st ch got).1 ∧
      UnitsInv minU (unitsLocalPass taken si secName minU idx st ch got).2.2
        (unitsLocalPass taken si secName minU idx st ch got).2.1 ∧
      ChNonneg (unitsLocalPass taken si secName minU idx st ch got).2.1 := by
  intro idx
  induction idx with
  | nil => intro st ch got hnn hinv hch; simpa [unitsLocalPass] using ⟨hnn, hinv, hch⟩
  | cons i rest ih =>
    intro st ch got hnn hinv hch
    by_cases hstop : minU ≤ got
    · simpa [unitsLocalPass, hstop] using ⟨hnn, hinv, hch⟩
    · have hlt : got < minU := lt_of_not_le hstop
      cases hf : findMatchForItem (getItem st si i) taken st.used with
      | some pick =>
        have hnn' : NonnegSt (markAndUse st si i pick) := markAndUse_nonneg hnn
        have hinv' : UnitsInv minU (got + pick.units)
            (ch ++ [⟨pick.code, pick.units, secName⟩]) :=
          unitsInv_extend ch ⟨pick.code, pick.units, secName⟩ hlt
        have hch' : ChNonneg (ch ++ [⟨pick.code, pick.units, secName⟩]) := by
          intro c hc
          rcases List.mem_append.mp hc with hc | hc
          · exact hch c hc
          · simp at hc; subst hc; exact pick_nonneg hnn hf
        simpa [unitsLocalPass, hstop, hf] using
          ih (markAndUse st si i pick)
            (ch ++ [⟨pick.code, pick.units, secName⟩]) (got + pick.units)
            hnn' hinv' hch'
      | none =>
        simpa [unitsLocalPass, hstop, hf] using ih st ch got hnn hinv hch

theorem foldl_add_units_nonneg {l : List Pick} (h : ∀ c ∈ l, (0:ℚ) ≤ c.units) :
    ∀ {t : ℚ}, 0 ≤ t → 0 ≤ l.foldl (fun t c => t + c.units) t := by
  induction l with
  | nil => intro t ht; simpa
  | cons c cs ih =>
    intro t ht
    have hc := h c (by simp)
    have ht' : (0:ℚ) ≤ t + c.units := by linarith
    simpa [List.foldl] using ih (fun x hx => h x (by simp [hx])) ht'

theorem sumFromList_nonneg {ch : List Pick} {L : String} (h : ChNonneg ch) :
    (0:ℚ) ≤ sumFromList ch L := by
  unfold sumFromList
  refine foldl_add_units_nonneg ?_ le_rfl
  intro c hc
  exact h c (List.mem_of_mem_filter hc)

theorem unitsPerListLoop_id {taken : List String} {L : String} {need : ℚ}
    {fuel : ℕ} {st : PState} {ch : List Pick} {got : ℚ}
    (hch : ChNonneg ch) (hneed : need ≤ 0) :
    unitsPerListLoop taken L need fuel st ch got = (st, ch, got) := by
  cases fuel with
  | zero => rfl
  | succ n =>
    have : ¬ sumFromList ch L < need :=
      not_lt_of_le (le_trans hneed (sumFromList_nonneg hch))
    simp [unitsPerListLoop, this]

theorem unitsPerListsPhase_id {taken : List String}
    {perListMin : List (String × ℚ)} {fuel : ℕ} :
    ∀ {allow : List String} {st : PState} {ch : List Pick} {got : ℚ},
      ChNonneg ch → (∀ L ∈ allow, lookupD perListMin L 0 ≤ 0) →
      unitsPerListsPhase taken perListMin fuel allow st ch got = (st, ch, got) := by
  intro allow
  induction allow with
  | nil => intro st ch got _ _; rfl
  | cons L rest ih =>
    intro st ch got hch hall
    have h1 : unitsPerListLoop taken L (lookupD perListMin L 0) fuel st ch got =
        (st, ch, got) :=
      unitsPerListLoop_id hch (hall L (by simp))
    have h2 := @ih st ch got hch (fun x hx => hall x (by simp [hx]))
    simp only [unitsPerListsPhase, h1]
    exact h2

theorem unitsTopUpLoop_spec {taken : List String} {si : ℕ} {secName : String}
    {allow : List String} {minU : ℚ} :
    ∀ (fuel : ℕ) (st : PState) (ch : List Pick) (got : ℚ),
      NonnegSt st → UnitsInv minU got ch → ChNonneg ch →
      UnitsInv minU (unitsTopUpLoop taken si secName allow minU fuel st ch got).2.2
        (unitsTopUpLoop taken si secName allow minU fuel st ch got).2.1 := by
  intro fuel
  induction fuel with
  | zero => intro st ch got _ hinv _; simpa [unitsTopUpLoop] using hinv
  | succ n ih =>
    intro st ch got hnn hinv hch
    by_cases hgo : got < minU
    · cases hx : pickWithFilter taken (fun _ => true) si secName allow st ch got with
      | none => simpa [unitsTopUpLoop, hgo, hx] using hinv
      | some r =>
        obtain ⟨hnn', p, hp, hch', hgot'⟩ := pickWithFilter_spec hnn hx
        have hinv' : UnitsInv minU r.2.2 r.2.1 := by
          rw [hch', hgot']; exact unitsInv_extend ch p hgo
        have hchn' : ChNonneg r.2.1 := by
          rw [hch']
          intro c hc
          rcases List.mem_append.mp hc with hc | hc
          · exact hch c hc
          · simp at hc; subst hc; exact hp
        simpa [unitsTopUpLoop, hgo, hx] using ih r.1 r.2.1 r.2.2 hnn' hinv' hchn'
    · simpa [unitsTopUpLoop, hgo] using hinv

/-! ## `evalCrossListUnits`.

The source pools the raw items of every section named by the FIRST rule of
type `CROSS_LIST_UNITS` (`Array.prototype.find`), sorts each pool's taken
matches by descending units, meets each per-list minimum (pass 1), then
tops up the global total from the remaining matches sorted globally by
descending units (pass 2).  The source also writes `matched`/`chosen` marks
onto the RAW catalog item objects; those marks are read by nothing inside
the same evaluation call (the later findings loop reads the separately
indexed working items), so they are not modelled. -/

structure Hit where
  code : String
  units : ℚ
  secName : String
deriving DecidableEq

structure CrossRes where
  done : Bool
  totalUnits : ℚ
  minTotal : ℚ
  earnedBySection : List (String × ℚ)
  perMin : List (String × ℚ)
  chosenBySection : List (String × List Hit)
deriving DecidableEq

def crossPools (sections : List SectionIn) (applies : List String) :
    List (String × List Hit) :=
  (sections.filter (fun s => s.name ∈ applies)).foldl
    (fun acc s =>
      let arr := s.items.foldl (fun a it =>
        a ++ it.any_of.map (fun o =>
          (⟨trimUpper o.code, o.units.getD 0, s.name⟩ : Hit))) []
      upsert s.name arr acc) []

def crossHits (taken : List String) (pools : List (String × List Hit)) :
    List (String × List Hit) :=
  pools.map (fun e => (e.1,
    stableSortBy (fun a b => b.units ≤ a.units)
      (e.2.filter (fun h => h.code ∈ taken))))

structure CrossSt where
  usedCodes : List String
  used : List String
  earned : List (String × ℚ)
  chosenBy : List (String × List Hit)
deriving DecidableEq

def crossPass1Sec (need : ℚ) (name : String) :
    List Hit → CrossSt → CrossSt
  | [], cst => cst
  | h :: rest, cst =>
    if need ≤ lookupD cst.earned name 0 then cst
    else if h.code ∈ cst.usedCodes ∨ h.code ∈ cst.used then
      crossPass1Sec need name rest cst
    else
      crossPass1Sec need name rest
        ⟨usedAdd cst.usedCodes h.code, usedAdd cst.used h.code,
          upsert name (lookupD cst.earned name 0 + h.units) cst.earned,
          pushAt cst.chosenBy name h⟩

def crossPass1 (perMin : List (String × ℚ)) :
    List (String × List Hit) → CrossSt → CrossSt
  | [], cst => cst
  | e :: rest, cst =>
    crossPass1 perMin rest (crossPass1Sec (lookupD perMin e.1 0) e.1 e.2 cst)

def crossLeftovers (hits : List (String × List Hit)) (cst : CrossSt) :
    List Hit :=
  stableSortBy (fun a b => b.units ≤ a.units)
    (hits.foldl (fun acc e =>
      acc ++ e.2.filter
        (fun h => h.code ∉ cst.usedCodes ∧ h.code ∉ cst.used)) [])

def crossPass2 (minTotal : ℚ) :
    List Hit → CrossSt × ℚ → CrossSt × ℚ
  | [], p => p
  | h :: rest, p =>
    if minTotal ≤ p.2 then p
    else
      crossPass2 minTotal rest
        (⟨usedAdd p.1.usedCodes h.code, usedAdd p.1.used h.code,
          upsert h.secName (lookupD p.1.earned h.secName 0 + h.units) p.1.earned,
          pushAt p.1.chosenBy h.secName h⟩, p.2 + h.units)

/-- Body of `evalCrossListUnits` for the found rule. -/
def evalCrossRule (sections : List SectionIn) (rule : CrossRule)
    (taken used : List String) : CrossRes × List String :=
  let pools := crossPools sections rule.applies_to
  let hits := crossHits taken pools
  let cst0 : CrossSt := ⟨[], used,
    pools.map (fun e => (e.1, (0:ℚ))),
    pools.map (fun e => (e.1, ([] : List Hit)))⟩
  let cst1 := crossPass1 rule.per_list_min_units hits cst0
  let total1 := (cst1.earned.map (fun e => e.2)).foldl (· + ·) 0
  let p2 := crossPass2 rule.min_units_total (crossLeftovers hits cst1)
    (cst1, total1)
  let perListOK := pools.all (fun e =>
    lookupD rule.per_list_min_units e.1 0 ≤ lookupD p2.1.earned e.1 0)
  let done := perListOK && decide (rule.min_units_total ≤ p2.2)
  (⟨done, p2.2, rule.min_units_total, p2.1.earned,
    rule.per_list_min_units, p2.1.chosenBy⟩, p2.1.used)

/-- Source `evalCrossListUnits`: only the FIRST rule of type
`CROSS_LIST_UNITS` is found and applied (`Array.prototype.find`); the
updated consumed-set is returned alongside.  `crossPools` reads only the
sections, so it receives them directly. -/
def evalCrossListUnits (detail : Detail) (taken used : List String) :
    Option CrossRes × List String :=
  match detail.cross_list_rules.find? (fun r => r.type = "CROSS_LIST_UNITS") with
  | none => (none, used)
  | some rule =>
    let r := evalCrossRule detail.sections rule taken used
    (some r.1, r.2)

/-! ## `evaluateProgram`: section coercion and phase plumbing. -/

def isDigitChar (c : Char) : Bool := '0' ≤ c && c ≤ '9'

def digitsToNat (l : List Char) : ℕ :=
  l.foldl (fun n c => n * 10 + (c.toNat - '0'.toNat)) 0

/-- Source `wordsToNum` inside `evaluateProgram`. -/
def wordsToNum (w : String) : Option ℕ :=
  if w = "" then none
  else
    let s := lowerStr w
    if s.data ≠ [] ∧ s.data.all isDigitChar then some (digitsToNat s.data)
    else if s = "one" then some 1 else if s = "two" then some 2
    else if s = "three" then some 3 else if s = "four" then some 4
    else if s = "five" then some 5 else if s = "six" then some 6
    else if s = "seven" then some 7 else if s = "eight" then some 8
    else if s = "nine" then some 9 else if s = "ten" then some 10
    else none

def isWordChar (c : Char) : Bool :=
  ('A' ≤ c && c ≤ 'Z') || ('a' ≤ c && c ≤ 'z') || isDigitChar c || c = '_'

/-- The capture group of the source regex matching section names that start
with optional whitespace, `Select` (case-insensitive), whitespace, and a
word. -/
def selectCapture (name : String) : Option String :=
  let l := name.data.dropWhile isWsChar
  let headWs : Bool := match l.drop 6 with
    | c :: _ => isWsChar c
    | [] => false
  if (l.take 6).map Char.toLower = "select".data ∧ headWs then
    let word := ((l.drop 6).dropWhile isWsChar).takeWhile isWordChar
    if word = [] then none else some ⟨word⟩
  else none

/-- Source `coerceSelectCountRule`: a LIST section named `Select <n> ...`
becomes `COUNT{min:n, max:n}` (a word resolving to 0 or an unknown word
leaves the rule alone, as does a falsy name). -/
def coerceSelectCountRule (sec : SectionIn) : SectionIn :=
  if sec.name = "" then sec
  else
    match selectCapture sec.name with
    | none => sec
    | some w =>
      if ruleTypeOf (sec.rule.bind (fun r => r.type)) = "LIST" then
        match wordsToNum w with
        | some n =>
          if n ≠ 0 then
            let cr : RuleIn := ⟨some "COUNT", some n, some n, none, none, none, none⟩
            { sec with rule := some cr }
          else sec
        | none => sec
      else sec

def processSections (ctx : PCtx) (detail : Detail) : List ESec :=
  detail.sections.map (fun s0 =>
    let sec := coerceSelectCountRule s0
    ⟨sec.name, sec.rule.getD ruleAll, indexSectionItems ctx sec⟩)

/-- Source `isAllish` on an indexed section. -/
def isAllishSec (detail : Detail) (s : ESec) : Bool :=
  let x := ruleTypeOf s.rule.type
  x = "ALL" || (x = "LIST" && !(sectionIsInCrossList detail s.name))

/-- Source test `/^GE\s|General Education/i` used by `skipGESections`. -/
def isGESection (name : String) : Bool :=
  let u := upperChars name.data
  (match u with
   | 'G' :: 'E' :: c :: _ => isWsChar c
   | _ => false) || isSubSeq "GENERAL EDUCATION".data u

/-- ALL/LIST phase over one section's items: one required atom per item, one
satisfied atom and one consumed code per match. -/
def allishItemsStep (taken : List String) (si : ℕ) :
    List ℕ → PState → ℤ → ℤ → PState × ℤ × ℤ
  | [], st, req, met => (st, req, met)
  | i :: rest, st, req, met =>
    match findMatchForItem (getItem st si i) taken st.used with
    | some pick =>
      allishItemsStep taken si rest (markAndUse st si i pick) (req + 1) (met + 1)
    | none => allishItemsStep taken si rest st (req + 1) met

def allishPhase (taken : List String) :
    List ℕ → PState → ℤ → ℤ → PState × ℤ × ℤ
  | [], st, req, met => (st, req, met)
  | si :: rest, st, req, met =>
    let r := allishItemsStep taken si
      (List.range (getSec st si).items.length) st req met
    allishPhase taken rest r.1 r.2.1 r.2.2

def countPhase (taken : List String) :
    List ℕ → PState → ℤ → ℤ → List (ℕ × List Pick) →
      PState × ℤ × ℤ × List (ℕ × List Pick)
  | [], st, req, met, rows => (st, req, met, rows)
  | si :: rest, st, req, met, rows =>
    let r := countPhaseStep taken si st
    countPhase taken rest r.1 (req + r.2.1) (met + r.2.2.1)
      (rows ++ [(si, r.2.2.2.chosen)])

def unitsPhase (ctx : PCtx) (taken : List String) :
    List ℕ → PState → ℤ → ℤ → List (ℕ × List Pick × ℚ) →
      PState × ℤ × ℤ × List (ℕ × List Pick × ℚ)
  | [], st, req, met, rows => (st, req, met, rows)
  | si :: rest, st, req, met, rows =>
    let r := unitsPhaseStep ctx taken si st
    unitsPhase ctx taken rest r.1 (req + r.2.1) (met + r.2.2.1)
      (rows ++ [(si, r.2.2.2.chosen, r.2.2.2.gotUnits)])

/-- Atom contribution of the cross-list allocation: one atom for the total,
one per per-list minimum, each independently scored. -/
def crossAtoms (cross : Option CrossRes) : ℤ × ℤ :=
  match cross with
  | none => (0, 0)
  | some c =>
    let per := c.perMin.foldl (fun (acc : ℤ × ℤ) e =>
      (acc.1 + 1,
        acc.2 + (if e.2 ≤ lookupD c.earnedBySection e.1 0 then 1 else 0)))
      (0, 0)
    (1 + per.1, (if c.minTotal ≤ c.totalUnits then 1 else 0) + per.2)

structure CrossFinding where
  applies_to : List String
  met_total : Bool
  total_units : ℚ
  need_total : ℚ
  shortLists : List (String × ℚ × ℚ)
deriving DecidableEq

/-- One entry of the `cross_list_checks` output: totals recomputed from the
`matched`/`chosen` marks of the indexed working items. -/
def crossAccOf (secs : List ESec) (r : CrossRule) : ℚ × List (String × ℚ) :=
  (secs.filter (fun s => s.name ∈ r.applies_to)).foldl
    (fun (p : ℚ × List (String × ℚ)) s =>
      s.items.foldl (fun (q : ℚ × List (String × ℚ)) it =>
        match it.chosen with
        | some c =>
          if it.matched then
            (q.1 + c.units, upsert s.name (lookupD q.2 s.name 0 + c.units) q.2)
          else q
        | none => q) p)
    ((0:ℚ), r.applies_to.map (fun l => (l, (0:ℚ))))

def mkCrossFinding (secs : List ESec) (r : CrossRule) : CrossFinding :=
  let acc := crossAccOf secs r
  let short := r.per_list_min_units.filterMap (fun e =>
    if lookupD acc.2 e.1 0 < e.2 then some (e.1, lookupD acc.2 e.1 0, e.2)
    else none)
  ⟨r.applies_to, decide (r.min_units_total ≤ acc.1), acc.1,
    r.min_units_total, short⟩

def crossFindingsOf (detail : Detail) (secs : List ESec) : List CrossFinding :=
  (detail.cross_list_rules.filter
    (fun r => upperStr r.type = "CROSS_LIST_UNITS")).map (mkCrossFinding secs)

/-! ## `evaluateProgram`: per-section detail rows. -/

inductive DetailItem where
  | met (code : String) (fromName : Option String)
  | unmet (isOr : Bool) (options : List String)
  | crossInfo (metB : Bool) (got need : ℚ) (usedC : List (String × ℚ))
      (suggest : List (String × ℚ))
  | allowNote (lists : List String)
deriving DecidableEq

structure DetailRow where
  sectionName : String
  items : List DetailItem
deriving DecidableEq

def renderCrossListSection (s : ESec) (cross : CrossRes) : DetailRow :=
  let got := lookupD cross.earnedBySection s.name 0
  let need := lookupD cross.perMin s.name 0
  let usedC := (lookupD cross.chosenBySection s.name []).map
    (fun h => (h.code, h.units))
  let suggest :=
    if got < need then
      dedupKeepFirst ((s.items.filter (fun i => !i.matched)).foldl
        (fun acc i => acc ++ i.options.map (fun o => (o.code, o.units))) [])
    else []
  ⟨s.name, [.crossInfo (decide (need ≤ got)) got need usedC suggest]⟩

/-- Detail rows of an ALL or LIST section (`chosen` is always set when
`matched` holds, so the default never fires on reachable states). -/
def detailAllish (s : ESec) : DetailRow :=
  ⟨s.name, s.items.map (fun item =>
    if item.matched then
      DetailItem.met ((item.chosen.map (fun c => c.code)).getD "") none
    else
      let options := item.options.map (fun o => o.code)
      DetailItem.unmet (decide (1 < options.length)) options)⟩

def pickLabelFrom (secName : String) (c : Pick) : Option String :=
  if c.fromName ≠ "" ∧ c.fromName ≠ secName then some c.fromName else none

def detailCount (ctx : PCtx) (s : ESec) (chosen : List Pick) : DetailRow :=
  let needed := s.rule.min.getD 1
  let usedCodes := chosen.map (fun c => canonicalizeCode ctx c.code)
  let metRows := chosen.map (fun c => DetailItem.met c.code (pickLabelFrom s.name c))
  let stillNeed := needed - chosen.length
  let unmatched := s.items.filter (fun i => !i.matched)
  let unmetRows := (unmatched.take (min stillNeed unmatched.length)).filterMap
    (fun item =>
      let options := (item.options.map (fun o => o.code)).filter
        (fun code => canonicalizeCode ctx code ∉ usedCodes)
      if 0 < options.length then
        some (DetailItem.unmet (decide (1 < options.length)) options)
      else none)
  ⟨s.name, metRows ++ unmetRows⟩

def detailUnits (ctx : PCtx) (s : ESec) (chosen : List Pick) (gotU : ℚ) :
    DetailRow :=
  let minUnits := s.rule.min_units.getD 0
  let minD := s.rule.min_disciplines.getD 0
  let perListMin := s.rule.per_list_min_units.getD []
  let metRows := chosen.map (fun c => DetailItem.met c.code (pickLabelFrom s.name c))
  let disciplinesMet : Bool :=
    if 0 < minD then
      decide (minD ≤
        (dedupKeepFirst (chosen.map (fun c => disciplineOfCode ctx c.code))).length)
    else true
  let needsMore :=
    perListMin.any (fun e => sumFromList chosen e.1 < e.2) ||
    (decide (gotU < minUnits) || !disciplinesMet)
  let unmetRows :=
    if needsMore then
      let unmatched := s.items.filter (fun i => !i.matched)
      let allowedLists := s.rule.allow_from.getD []
      let stillNeeded := ratCeil ((minUnits - gotU) / unitsAvg chosen)
      let showCount := min stillNeeded (unmatched.length : ℤ)
      let rows1 := (unmatched.take showCount.toNat).map (fun item =>
        let options := item.options.map (fun o => o.code)
        DetailItem.unmet (decide (1 < options.length)) options)
      rows1 ++ (if 0 < allowedLists.length ∧ showCount < stillNeeded then
        [DetailItem.allowNote allowedLists] else [])
    else []
  ⟨s.name, metRows ++ unmetRows⟩

def detailRowsGo (ctx : PCtx) (skipGE : Bool) (cross : Option CrossRes)
    (secs : List ESec) (countRows : List (ℕ × List Pick))
    (unitsRows : List (ℕ × List Pick × ℚ)) : List ℕ → List DetailRow
  | [] => []
  | si :: rest =>
    let s := secAt secs si
    if skipGE && isGESection s.name then
      detailRowsGo ctx skipGE cross secs countRows unitsRows rest
    else
      let crossRow : Option DetailRow :=
        match cross with
        | some c =>
          if (c.earnedBySection.lookup s.name).isSome then
            some (renderCrossListSection s c)
          else none
        | none => none
      match crossRow with
      | some r => r :: detailRowsGo ctx skipGE cross secs countRows unitsRows rest
      | none =>
        let rt := ruleTypeOf s.rule.type
        let r :=
          if rt = "ALL" ∨ rt = "LIST" then detailAllish s
          else if rt = "COUNT" then detailCount ctx s (lookupD countRows si [])
          else if rt = "UNITS" then
            detailUnits ctx s (lookupD unitsRows si ([], 0)).1
              (lookupD unitsRows si ([], 0)).2
          else (⟨s.name, []⟩ : DetailRow)
        r :: detailRowsGo ctx skipGE cross secs countRows unitsRows rest

/-! ## `evaluateProgram` assembled. -/

structure PResult where
  percent : ℤ
  requiredItems : ℤ
  satisfied : ℤ
  details : List DetailRow
  cross_list_checks : List CrossFinding
  crossListSummary : Option CrossRes
  isComplete : Option Bool
deriving DecidableEq

/-- Source `evaluateProgram` from the point where the taken-set exists (the
transcript-to-taken-set step is the CourseLedger boundary of the spec); the
final working state is returned alongside the result for the theorems. -/
def evaluateProgramS (ctx : PCtx) (detail : Detail) (taken : List String)
    (skipGE : Bool) : PResult × PState :=
  let secs := processSections ctx detail
  let crossP := evalCrossListUnits detail taken []
  let cross := crossP.1
  let st1 : PState := ⟨secs, crossP.2⟩
  let allIdx := (List.range secs.length).filter (fun si =>
    isAllishSec detail (secAt secs si) &&
    !(skipGE && isGESection (secAt secs si).name))
  let a := allishPhase taken allIdx st1 0 0
  let cntIdx := (List.range secs.length).filter (fun si =>
    ruleTypeOf (secAt secs si).rule.type = "COUNT" &&
    !(sectionIsInCrossList detail (secAt secs si).name) &&
    !(skipGE && isGESection (secAt secs si).name))
  let c := countPhase taken cntIdx a.1 a.2.1 a.2.2 []
  let uIdx := (List.range secs.length).filter (fun si =>
    ruleTypeOf (secAt secs si).rule.type = "UNITS" &&
    !(skipGE && isGESection (secAt secs si).name))
  let u := unitsPhase ctx taken uIdx c.1 c.2.1 c.2.2.1 []
  let ca := crossAtoms cross
  let req := u.2.1 + ca.1
  let met := u.2.2.1 + ca.2
  let finalSt := u.1
  let findings := crossFindingsOf detail finalSt.secs
  let hasAnyItems := secs.any (fun s => !s.items.isEmpty)
  let percent : ℤ :=
    if req ≠ 0 then ratFloor ((met : ℚ) / (req : ℚ) * 100 + 1/2)
    else if hasAnyItems then 0 else 100
  let dRows := detailRowsGo ctx skipGE cross finalSt.secs c.2.2.2 u.2.2.2
    (List.range finalSt.secs.length)
  let isComp : Option Bool := match cross with
    | some _ => some (decide (met = req))
    | none => none
  (⟨percent, req, met, dRows, findings, cross, isComp⟩, finalSt)

def evaluateProgram (ctx : PCtx) (detail : Detail) (taken : List String)
    (skipGE : Bool) : PResult :=
  (evaluateProgramS ctx detail taken skipGE).1

/-! ## Claim C6: COUNT sections never overshoot. -/

/-- Trivial collaborator context (empty alias tables, no catalog units). -/
def pctxTrivial : PCtx := ⟨fun _ => none, fun _ => none, fun _ => none⟩

/-- C6: a COUNT section with `min ≤ max` never selects more than `max`
items, adds `min` required atoms, and reports exactly
`min(chosenCount, min)` satisfied atoms, hence never more than `min`. -/
theorem c6_count_caps (taken : List String) (si : ℕ) (st : PState)
    (h : (getSec st si).rule.min.getD 1 ≤
      (getSec st si).rule.max.getD ((getSec st si).rule.min.getD 1)) :
    (satisfyCountSection taken si st).2.chosen.length ≤
      (getSec st si).rule.max.getD ((getSec st si).rule.min.getD 1) ∧
    (countPhaseStep taken si st).2.1 = ((getSec st si).rule.min.getD 1 : ℤ) ∧
    (countPhaseStep taken si st).2.2.1 =
      min ((satisfyCountSection taken si st).2.chosen.length : ℤ)
        ((getSec st si).rule.min.getD 1 : ℤ) ∧
    (countPhaseStep taken si st).2.2.1 ≤ ((getSec st si).rule.min.getD 1 : ℤ) := by
  have hlen : (satisfyCountSection taken si st).2.chosen.length ≤
      (getSec st si).rule.max.getD ((getSec st si).rule.min.getD 1) := by
    unfold satisfyCountSection
    refine countBorrowLists_length_le taken _ _ h _ _ _ ?_
    exact countLocalPass_length_le taken si _ _ _ st [] (Nat.zero_le _)
  refine ⟨hlen, ?_, ?_, ?_⟩
  · simp [countPhaseStep]
  · simp [countPhaseStep]
  · simp only [countPhaseStep]
    exact min_le_right _ _

def c6secMajor : ESec :=
  ⟨"Major", ⟨some "COUNT", some 2, some 2, none, none, some ["ElectivesA"], none⟩,
    [⟨[⟨"C 1", 3⟩], false, none⟩]⟩

def c6secPool : ESec :=
  ⟨"ElectivesA", ruleAll, [⟨[⟨"A 1", 3⟩], false, none⟩]⟩

def c6st : PState := ⟨[c6secMajor, c6secPool], []⟩

/-- Witness for C6 at scenario 2 of the spec: `COUNT{min:2, max:2,
allow_from:[ElectivesA]}` with one local match and one pool match chooses
both and reports two satisfied atoms. -/
theorem c6_count_caps_witness :
    (getSec c6st 0).rule.min.getD 1 ≤
      (getSec c6st 0).rule.max.getD ((getSec c6st 0).rule.min.getD 1) ∧
    ((satisfyCountSection ["C 1", "A 1"] 0 c6st).2.chosen.length ≤
      (getSec c6st 0).rule.max.getD ((getSec c6st 0).rule.min.getD 1) ∧
    (countPhaseStep ["C 1", "A 1"] 0 c6st).2.1 =
      ((getSec c6st 0).rule.min.getD 1 : ℤ) ∧
    (countPhaseStep ["C 1", "A 1"] 0 c6st).2.2.1 =
      min ((satisfyCountSection ["C 1", "A 1"] 0 c6st).2.chosen.length : ℤ)
        ((getSec c6st 0).rule.min.getD 1 : ℤ) ∧
    (countPhaseStep ["C 1", "A 1"] 0 c6st).2.2.1 ≤
      ((getSec c6st 0).rule.min.getD 1 : ℤ)) ∧
    (countPhaseStep ["C 1", "A 1"] 0 c6st).2.2.1 = 2 :=
  ⟨by with_unfolding_all decide,
   c6_count_caps ["C 1", "A 1"] 0 c6st (by with_unfolding_all decide),
   by with_unfolding_all decide⟩

/-! ## Claim C7: UNITS overshoot bound. -/

def c7secS : ESec := ⟨"S",
  ⟨some "UNITS", none, none, some 3, none, some ["L"], some [("L", 6)]⟩,
  [⟨[⟨"S1", 3⟩], false, none⟩]⟩

def c7secL : ESec := ⟨"L", ruleAll,
  [⟨[⟨"L1", 3⟩], false, none⟩, ⟨[⟨"L2", 3⟩], false, none⟩]⟩

def c7st : PState := ⟨[c7secS, c7secL], []⟩

/-- C7 counterexample: a UNITS section with `min_disciplines = 0`,
`min_units = 3` and `per_list_min_units {L: 6}` ends at 9 units — exceeding
`min_units` by 6, twice the largest chosen course, because the per-list
minimum pass keeps consuming after `min_units` is reached. -/
theorem c7_counterexample :
    (satisfyUnitsSection pctxTrivial ["S1", "L1", "L2"] 0 c7st).2.gotUnits = 9 ∧
    (satisfyUnitsSection pctxTrivial ["S1", "L1", "L2"] 0 c7st).2.minUnits = 3 ∧
    (getSec c7st 0).rule.min_disciplines.getD 0 = 0 ∧
    ¬ UnitsInv (satisfyUnitsSection pctxTrivial ["S1", "L1", "L2"] 0 c7st).2.minUnits
      (satisfyUnitsSection pctxTrivial ["S1", "L1", "L2"] 0 c7st).2.gotUnits
      (satisfyUnitsSection pctxTrivial ["S1", "L1", "L2"] 0 c7st).2.chosen := by
  with_unfolding_all decide

/-- C7 amended: for a UNITS section with `min_disciplines = 0`, nonnegative
`min_units`, nonnegative option units, and no effective `per_list_min_units`
entry for its `allow_from` pools, the final unit total never exceeds
`min_units` by more than the unit value of one chosen course. -/
theorem c7_amended (ctx : PCtx) (taken : List String) (si : ℕ) (st : PState)
    (hd : (getSec st si).rule.min_disciplines.getD 0 = 0)
    (hmu : 0 ≤ (getSec st si).rule.min_units.getD 0)
    (hnn : NonnegSt st)
    (hpl : ∀ L ∈ (getSec st si).rule.allow_from.getD [],
      lookupD ((getSec st si).rule.per_list_min_units.getD []) L 0 ≤ 0) :
    UnitsInv (satisfyUnitsSection ctx taken si st).2.minUnits
      (satisfyUnitsSection ctx taken si st).2.gotUnits
      (satisfyUnitsSection ctx taken si st).2.chosen := by
  have hd' : ¬ (0 < (getSec st si).rule.min_disciplines.getD 0) := by
    rw [hd]; exact lt_irrefl 0
  have h1 := @unitsLocalPass_spec taken si (getSec st si).name
    ((getSec st si).rule.min_units.getD 0)
    (List.range (getSec st si).items.length) st [] 0
    hnn (Or.inl hmu) (by intro c hc; simp at hc)
  obtain ⟨hn1, hi1, hc1⟩ := h1
  have h2 := @unitsPerListsPhase_id taken
    ((getSec st si).rule.per_list_min_units.getD [])
    (totalItems st + 1)
    ((getSec st si).rule.allow_from.getD [])
    ((unitsLocalPass taken si (getSec st si).name
      ((getSec st si).rule.min_units.getD 0)
      (List.range (getSec st si).items.length) st [] 0).1)
    ((unitsLocalPass taken si (getSec st si).name
      ((getSec st si).rule.min_units.getD 0)
      (List.range (getSec st si).items.length) st [] 0).2.1)
    ((unitsLocalPass taken si (getSec st si).name
      ((getSec st si).rule.min_units.getD 0)
      (List.range (getSec st si).items.length) st [] 0).2.2)
    hc1 hpl
  have h3 := @unitsTopUpLoop_spec taken si (getSec st si).name
    ((getSec st si).rule.allow_from.getD [])
    ((getSec st si).rule.min_units.getD 0)
    (totalItems st + 1)
    (unitsLocalPass taken si (getSec st si).name
      ((getSec st si).rule.min_units.getD 0)
      (List.range (getSec st si).items.length) st [] 0).1
    (unitsLocalPass taken si (getSec st si).name
      ((getSec st si).rule.min_units.getD 0)
      (List.range (getSec st si).items.length) st [] 0).2.1
    (unitsLocalPass taken si (getSec st si).name
      ((getSec st si).rule.min_units.getD 0)
      (List.range (getSec st si).items.length) st [] 0).2.2
    hn1 hi1 hc1
  simp only [satisfyUnitsSection, hd', if_false, h2]
  exact h3

def c7okSec : ESec := ⟨"S",
  ⟨some "UNITS", none, none, some 3, none, none, none⟩,
  [⟨[⟨"S1", 3⟩], false, none⟩]⟩

def c7okSt : PState := ⟨[c7okSec], []⟩

/-- Witness for the amended C7 on a plain UNITS section. -/
theorem c7_amended_witness :
    ((getSec c7okSt 0).rule.min_disciplines.getD 0 = 0 ∧
      0 ≤ (getSec c7okSt 0).rule.min_units.getD 0 ∧ NonnegSt c7okSt ∧
      (∀ L ∈ (getSec c7okSt 0).rule.allow_from.getD [],
        lookupD ((getSec c7okSt 0).rule.per_list_min_units.getD []) L 0 ≤ 0)) ∧
    UnitsInv (satisfyUnitsSection pctxTrivial ["S1"] 0 c7okSt).2.minUnits
      (satisfyUnitsSection pctxTrivial ["S1"] 0 c7okSt).2.gotUnits
      (satisfyUnitsSection pctxTrivial ["S1"] 0 c7okSt).2.chosen :=
  ⟨⟨by with_unfolding_all decide, by with_unfolding_all decide,
    by with_unfolding_all decide, by with_unfolding_all decide⟩,
   c7_amended pctxTrivial ["S1"] 0 c7okSt
     (by with_unfolding_all decide) (by with_unfolding_all decide)
     (by with_unfolding_all decide) (by with_unfolding_all decide)⟩

/-! ## Claim C3: atom accounting of UNITS sections. -/

theorem unitsMissing_eq_nil_iff (ctx : PCtx) (chosen : List Pick)
    (got minU : ℚ) (minD : ℕ) (allow : List String)
    (perListMin : List (String × ℚ)) :
    unitsMissing ctx chosen got minU minD allow perListMin = [] ↔
      ((0 < minD → minD ≤ (dedupKeepFirst (chosen.map
          (fun c => disciplineOfCode ctx c.code))).length) ∧
       (∀ L ∈ allow, lookupD perListMin L 0 ≤ sumFromList chosen L) ∧
       minU ≤ got) := by
  unfold unitsMissing
  have h1 : (if 0 < minD then
        (let ds := dedupKeepFirst (chosen.map (fun c => disciplineOfCode ctx c.code))
         if ds.length < minD then
           [MissingReason.disciplines minD ds.length] else [])
      else []) = [] ↔
      (0 < minD → minD ≤ (dedupKeepFirst (chosen.map
        (fun c => disciplineOfCode ctx c.code))).length) := by
    by_cases h : 0 < minD
    · by_cases h2 : (dedupKeepFirst (chosen.map
          (fun c => disciplineOfCode ctx c.code))).length < minD
      · simp [h, h2, Nat.not_le.mpr h2]
      · simp [h, h2, Nat.not_lt.mp h2]
    · simp [h]
  have h2 : (allow.filterMap (fun L =>
        let need := lookupD perListMin L 0
        let hv := sumFromList chosen L
        if hv < need then some (MissingReason.perList (need - hv) L) else none)
      = []) ↔
      (∀ L ∈ allow, lookupD perListMin L 0 ≤ sumFromList chosen L) := by
    rw [List.filterMap_eq_nil_iff]
    constructor
    · intro h L hL
      have := h L hL
      by_cases hlt : sumFromList chosen L < lookupD perListMin L 0
      · simp [hlt] at this
      · exact not_lt.mp hlt
    · intro h L hL
      simp [not_lt.mpr (h L hL)]
  have h3 : (if got < minU then [MissingReason.overall (minU - got)] else [])
      = [] ↔ minU ≤ got := by
    by_cases h : got < minU
    · simp [h, not_le.mpr h]
    · simp [h, not_lt.mp h]
  simp only [List.append_eq_nil]
  rw [h1, h2, h3]
  tauto

/-- C3 amended: a UNITS section contributes
`ceil(min_units / average_unit_size_of_chosen)` required atoms (average
defaulting to 3 when nothing is chosen) and `min(chosenCount, estimate)`
satisfied atoms — partial credit not gated on the sub-constraints — while
sub-constraint satisfaction is reported through the missing list, which is
empty exactly when `min_units`, `min_disciplines`, and every
`per_list_min_units` entry are met. -/
theorem c3_amended (ctx : PCtx) (taken : List String) (si : ℕ) (st : PState) :
    (unitsPhaseStep ctx taken si st).2.1 =
      ratCeil (((getSec st si).rule.min_units.getD 0) /
        unitsAvg (satisfyUnitsSection ctx taken si st).2.chosen) ∧
    (unitsPhaseStep ctx taken si st).2.2.1 =
      min ((satisfyUnitsSection ctx taken si st).2.chosen.length : ℤ)
        ((unitsPhaseStep ctx taken si st).2.1) ∧
    ((satisfyUnitsSection ctx taken si st).2.missing = [] ↔
      ((0 < (getSec st si).rule.min_disciplines.getD 0 →
        (getSec st si).rule.min_disciplines.getD 0 ≤
          (dedupKeepFirst ((satisfyUnitsSection ctx taken si st).2.chosen.map
            (fun c => disciplineOfCode ctx c.code))).length) ∧
      (∀ L ∈ (getSec st si).rule.allow_from.getD [],
        lookupD ((getSec st si).rule.per_list_min_units.getD []) L 0 ≤
          sumFromList (satisfyUnitsSection ctx taken si st).2.chosen L) ∧
      (getSec st si).rule.min_units.getD 0 ≤
        (satisfyUnitsSection ctx taken si st).2.gotUnits)) := by
  refine ⟨rfl, rfl, ?_⟩
  exact unitsMissing_eq_nil_iff ctx
    ((satisfyUnitsSection ctx taken si st).2.chosen)
    ((satisfyUnitsSection ctx taken si st).2.gotUnits)
    ((getSec st si).rule.min_units.getD 0)
    ((getSec st si).rule.min_disciplines.getD 0)
    ((getSec st si).rule.allow_from.getD [])
    ((getSec st si).rule.per_list_min_units.getD [])

def c3sec : SectionIn := ⟨"Core",
  some ⟨some "UNITS", none, none, some 9, none, none, none⟩,
  [⟨[⟨"M 1", some 3⟩]⟩, ⟨[⟨"M 2", some 3⟩]⟩]⟩

def c3detail : Detail := ⟨[c3sec], []⟩

def c3st : PState := ⟨processSections pctxTrivial c3detail, []⟩

/-- C3 counterexample: a `UNITS{min_units: 9}` section with two 3-unit
matches contributes THREE required atoms (not one) and is credited TWO
satisfied atoms although its missing list is nonempty — partial credit with
unmet sub-constraints, refuting the one-atom-only-when-all-hold claim. -/
theorem c3_counterexample :
    (unitsPhaseStep pctxTrivial ["M 1", "M 2"] 0 c3st).2.1 = 3 ∧
    (unitsPhaseStep pctxTrivial ["M 1", "M 2"] 0 c3st).2.2.1 = 2 ∧
    (unitsPhaseStep pctxTrivial ["M 1", "M 2"] 0 c3st).2.2.2.missing ≠ [] ∧
    (unitsPhaseStep pctxTrivial ["M 1", "M 2"] 0 c3st).2.2.2.gotUnits = 6 := by
  with_unfolding_all decide

/-! ## Claim C5: CROSS_LIST_UNITS two-pass allocation. -/

def c5detail : Detail := ⟨
  [⟨"X", some ⟨some "LIST", none, none, none, none, none, none⟩,
     [⟨[⟨"X 1", some 3⟩]⟩, ⟨[⟨"X 2", some 3⟩]⟩]⟩,
   ⟨"Y", some ⟨some "LIST", none, none, none, none, none, none⟩,
     [⟨[⟨"Y 1", some 3⟩]⟩]⟩],
  [⟨"CROSS_LIST_UNITS", ["X", "Y"], [("X", 3), ("Y", 3)], 9⟩]⟩

def c5taken : List String := ["X 1", "X 2", "Y 1"]

def c5pools : List (String × List Hit) := crossPools c5detail.sections ["X", "Y"]

def c5hits : List (String × List Hit) := crossHits c5taken c5pools

/-- The pass-1 state of `evalCrossListUnits` on the scenario-5 input. -/
def c5cst1 : CrossSt :=
  crossPass1 [("X", 3), ("Y", 3)] c5hits
    ⟨[], [], c5pools.map (fun e => (e.1, (0:ℚ))),
      c5pools.map (fun e => (e.1, ([] : List Hit)))⟩

/-- C5: the cross-list allocator is two-pass — pass 1 meets each per-list
minimum from that pool's highest-unit matches, and the global top-up never
consumes anything when the total is already met; on scenario 5 (per-list
minima X:3 and Y:3, total 9, two 3-unit X courses and one 3-unit Y course)
pass 1 ends with X and Y each at 3 of 3, and the leftover X course tops the
total up to 9 of 9 with every minimum met, so `done` holds. -/
theorem c5_cross_list_two_pass :
    (∀ (minTotal : ℚ) (lo : List Hit) (cst : CrossSt) (total : ℚ),
      minTotal ≤ total → crossPass2 minTotal lo (cst, total) = (cst, total)) ∧
    c5cst1.earned = [("X", 3), ("Y", 3)] ∧
    (evalCrossListUnits c5detail c5taken []).1 =
      some ⟨true, 9, 9, [("X", 6), ("Y", 3)], [("X", 3), ("Y", 3)],
        [("X", [⟨"X 1", 3, "X"⟩, ⟨"X 2", 3, "X"⟩]), ("Y", [⟨"Y 1", 3, "Y"⟩])]⟩ ∧
    (evalCrossListUnits c5detail c5taken []).2 = ["X 1", "Y 1", "X 2"] := by
  refine ⟨?_, by with_unfolding_all decide,
    by with_unfolding_all decide, by with_unfolding_all decide⟩
  intro minTotal lo cst total h
  cases lo with
  | nil => rfl
  | cons hd tl => simp [crossPass2, h]

/-! ## Claim C10: only the first CROSS_LIST_UNITS rule allocates. -/

theorem crossAtoms_req (c : CrossRes) :
    (crossAtoms (some c)).1 = 1 + c.perMin.length := by
  have key : ∀ (l : List (String × ℚ)) (acc : ℤ × ℤ),
      (l.foldl (fun (acc : ℤ × ℤ) e =>
        (acc.1 + 1,
          acc.2 + (if e.2 ≤ lookupD c.earnedBySection e.1 0 then (1:ℤ) else 0)))
        acc).1 = acc.1 + l.length := by
    intro l
    induction l with
    | nil => intro acc; simp
    | cons e rest ih =>
      intro acc
      rw [List.foldl_cons, ih]
      simp only [List.length_cons]
      push_cast
      ring
  simp only [crossAtoms, key]
  simp

/-- C10: with several cross-list rules, the allocator is driven entirely by
the first rule of type `CROSS_LIST_UNITS` — dropping every later rule from
the list leaves the allocation and the consumed set unchanged; the
program result cross summary comes from that first rule alone; the atoms
contributed are one for the total plus one per per-list minimum of the
first rule; and the findings report one entry per matching rule, the later
rules appearing there and nowhere else. -/
theorem c10_first_cross_rule_only (S : List SectionIn) (r1 : CrossRule)
    (rest : List CrossRule) (ctx : PCtx) (taken used : List String)
    (secs : List ESec) (skipGE : Bool)
    (h1 : r1.type = "CROSS_LIST_UNITS") :
    (evalCrossListUnits ⟨S, r1 :: rest⟩ taken used =
      evalCrossListUnits ⟨S, [r1]⟩ taken used) ∧
    ((evaluateProgram ctx ⟨S, r1 :: rest⟩ taken skipGE).crossListSummary =
      (evalCrossListUnits ⟨S, [r1]⟩ taken []).1) ∧
    (∀ c, (evalCrossListUnits ⟨S, r1 :: rest⟩ taken used).1 = some c →
      (crossAtoms (some c)).1 = 1 + c.perMin.length ∧
      c.perMin = r1.per_list_min_units) ∧
    ((crossFindingsOf ⟨S, r1 :: rest⟩ secs).length =
      1 + (rest.filter (fun r => upperStr r.type = "CROSS_LIST_UNITS")).length) := by
  have hp : (fun r : CrossRule => decide (r.type = "CROSS_LIST_UNITS")) r1 = true := by
    simp [h1]
  have hf1 : (Detail.mk S (r1 :: rest)).cross_list_rules.find?
      (fun r => r.type = "CROSS_LIST_UNITS") = some r1 :=
    List.find?_cons_of_pos _ hp
  have hf2 : (Detail.mk S [r1]).cross_list_rules.find?
      (fun r => r.type = "CROSS_LIST_UNITS") = some r1 :=
    List.find?_cons_of_pos _ hp
  have key : ∀ u, evalCrossListUnits ⟨S, r1 :: rest⟩ taken u =
      evalCrossListUnits ⟨S, [r1]⟩ taken u := by
    intro u
    unfold evalCrossListUnits
    rw [hf1, hf2]
  refine ⟨key used, ?_, ?_, ?_⟩
  · show (evalCrossListUnits ⟨S, r1 :: rest⟩ taken []).1 =
      (evalCrossListUnits ⟨S, [r1]⟩ taken []).1
    rw [key]
  · intro c hc
    rw [key used] at hc
    unfold evalCrossListUnits at hc
    rw [hf2] at hc
    simp only [Option.some.injEq] at hc
    subst hc
    exact ⟨crossAtoms_req _, rfl⟩
  · have hu : upperStr r1.type = "CROSS_LIST_UNITS" := by
      rw [h1]; decide
    simp [crossFindingsOf, List.filter_cons, hu]
    omega

def c10rule : CrossRule := ⟨"CROSS_LIST_UNITS", ["X"], [("X", 3)], 3⟩

/-- Witness for C10 on a two-rule program. -/
theorem c10_first_cross_rule_only_witness :
    c10rule.type = "CROSS_LIST_UNITS" ∧
    ((evalCrossListUnits ⟨[], c10rule :: [c10rule]⟩ [] [] =
      evalCrossListUnits ⟨[], [c10rule]⟩ [] []) ∧
    ((evaluateProgram pctxTrivial ⟨[], c10rule :: [c10rule]⟩ [] false).crossListSummary =
      (evalCrossListUnits ⟨[], [c10rule]⟩ [] []).1) ∧
    (∀ c, (evalCrossListUnits ⟨[], c10rule :: [c10rule]⟩ [] []).1 = some c →
      (crossAtoms (some c)).1 = 1 + c.perMin.length ∧
      c.perMin = c10rule.per_list_min_units) ∧
    ((crossFindingsOf ⟨[], c10rule :: [c10rule]⟩ []).length =
      1 + ([c10rule].filter (fun r => upperStr r.type = "CROSS_LIST_UNITS")).length)) :=
  ⟨rfl, c10_first_cross_rule_only [] c10rule [c10rule] pctxTrivial [] [] [] false rfl⟩

/-! ## GE pattern evaluator core (`evaluateGE` internals).

`GCtx` carries the inputs the source computes from the GE pattern object,
the transcript and the exam tables before `walk` runs: the bucket and
attribute lookups, the set of passing courses plus exam pseudo-courses, the
exam-by-area map, the exam pseudo-course unit table and the catalog unit
lookup.  `walk`, `pickForArea` and `satisfyRequires` are translated from
the source; JS in-place mutation of `used`/`alloc` becomes state passing
(`GSt`), and the write-only `orGroups`/`orChoice` dictionaries become an
append-only log (`OrLog`), folded to a dictionary by the reporting layer. -/

structure GCtx where
  bucketMap : List (String × List String)
  attrMap : List (String × List String)
  okCourses : List String
  examByArea : List (String × List String)
  examUnits : List (String × ℚ)
  courseUnits : String → ℚ

/-- Source `unitsFor`: exam pseudo-course units first, else catalog units. -/
def gUnitsFor (ctx : GCtx) (code : String) : ℚ :=
  match ctx.examUnits.lookup code with
  | some u => u
  | none => ctx.courseUnits code

def isExamCode (ctx : GCtx) (code : String) : Bool :=
  (ctx.examUnits.lookup code).isSome

/-- Source `areaCandidates`: bucket codes present in the taken set plus
exam pseudo-courses mapped to the area, deduplicated keeping first; an area
absent from the bucket map has no candidates. -/
def areaCandidates (ctx : GCtx) (area : String) : List String :=
  match ctx.bucketMap.lookup area with
  | none => []
  | some set =>
    let fromCatalog := set.filter (fun c => c ∈ ctx.okCourses)
    let fromExams := (ctx.examByArea.lookup area).getD []
    dedupKeepFirst (fromCatalog ++ fromExams)

def countAreasContaining (ctx : GCtx) (code : String) : ℕ :=
  (ctx.bucketMap.filter (fun e => code ∈ e.2)).length

structure Scored where
  c : String
  u : ℚ
  w : ℤ
deriving DecidableEq

/-- Comparator of the source `scored.sort((a,b) => a.w - b.w || b.u - a.u)`:
ascending multi-bucket weight, then descending units. -/
def scoredLe (a b : Scored) : Bool :=
  a.w < b.w || (a.w = b.w && b.u ≤ a.u)

/-- Discipline key of a candidate: exam pseudo-courses get a synthetic
`EXAM:`-prefixed key, real courses their code prefix. -/
def gPrefKey (ctx : GCtx) (c : String) : String :=
  if isExamCode ctx c then "EXAM:" ++ c else prefixOf c

/-- First selection pass of `pickForArea`: walk the ranking, skip a
candidate whose discipline repeats when distinctness is required, stop once
both course and unit minima are met (checked after each addition). -/
def areaPass1 (ctx : GCtx) (needC : ℕ) (needU : ℚ) (needD : ℕ) :
    List Scored → List String → ℚ → List String →
      List String × ℚ × List String
  | [], ch, units, seen => (ch, units, seen)
  | it :: rest, ch, units, seen =>
    let pref := gPrefKey ctx it.c
    if needD ≠ 0 ∧ pref ∈ seen then
      areaPass1 ctx needC needU needD rest ch units seen
    else
      let ch' := ch ++ [it.c]
      let units' := units + it.u
      let seen' := usedAdd seen pref
      if needC ≤ ch'.length ∧ needU ≤ units' then (ch', units', seen')
      else areaPass1 ctx needC needU needD rest ch' units' seen'

/-- Second pass of `pickForArea`, entered when units remain short; note it
repeats the discipline filter of the first pass. -/
def areaPass2 (ctx : GCtx) (needU : ℚ) (needD : ℕ) :
    List Scored → List String → ℚ → List String →
      List String × ℚ × List String
  | [], ch, units, seen => (ch, units, seen)
  | it :: rest, ch, units, seen =>
    if it.c ∈ ch then areaPass2 ctx needU needD rest ch units seen
    else
      let pref := gPrefKey ctx it.c
      if needD ≠ 0 ∧ pref ∈ seen then areaPass2 ctx needU needD rest ch units seen
      else
        let ch' := ch ++ [it.c]
        let units' := units + it.u
        let seen' := usedAdd seen pref
        if needU ≤ units' then (ch', units', seen')
        else areaPass2 ctx needU needD rest ch' units' seen'

structure PickRes where
  chosen : List String
  units : ℚ
  satisfied : Bool
deriving DecidableEq

def strStartsWith (s pre : String) : Bool := pre.data.isPrefixOf s.data

/-- Source `pickForArea`. -/
def pickForArea (ctx : GCtx) (area : String) (needC : ℕ) (needU : ℚ)
    (needD : ℕ) (used : List String) : PickRes :=
  let pool := (areaCandidates ctx area).filter (fun c => c ∉ used)
  if pool.isEmpty then ⟨[], 0, false⟩
  else
    let scored := pool.map (fun c =>
      (⟨c, gUnitsFor ctx c, (countAreasContaining ctx c : ℤ) - 1⟩ : Scored))
    let sorted := stableSortBy scoredLe scored
    let p1 := areaPass1 ctx needC needU needD sorted [] 0 []
    let p2 := if p1.2.1 < needU then
        areaPass2 ctx needU needD sorted p1.1 p1.2.1 p1.2.2
      else p1
    let chosen := p2.1
    let units := p2.2.1
    if area = "6A" ∧ chosen.any (fun c => strStartsWith c "EXAM:Other:IGETC 6A")
    then ⟨chosen, units, decide (needC ≤ chosen.length)⟩
    else ⟨chosen, units,
      decide (needC ≤ chosen.length) && decide (needU ≤ units)⟩

/-! ## `satisfyRequires` (attribute-gated requirements). -/

structure GSt where
  used : List String
  alloc : List (String × List String)
deriving DecidableEq

def ensureKey (l : List (String × List String)) (k : String) :
    List (String × List String) :=
  if (l.lookup k).isSome then l else upsert k [] l

structure RPick where
  a : String
  c : String
  u : ℚ
deriving DecidableEq

/-- Candidate pool of `satisfyRequires`: unconsumed candidates of the
`from_areas` carrying the attribute.  A course present in several of the
listed areas appears once per area, as in the source. -/
def requirePool (ctx : GCtx) (attr : String) (fromAreas : List String)
    (used : List String) : List RPick :=
  fromAreas.foldl (fun acc a =>
    acc ++ ((areaCandidates ctx a).filter (fun c =>
      c ∉ used ∧ c ∈ lookupD ctx.attrMap attr [])).map
      (fun c => (⟨a, c, gUnitsFor ctx c⟩ : RPick))) []

/-- Consumption loop of `satisfyRequires`: consume pool entries in order
(no re-check against the consumed set inside the loop), record the course
under its originating area when that area's allocation is empty, and under
`satisfies_area` when set, until `count` picks are made. -/
def requireLoop (satArea : Option String) (cnt : ℕ) :
    List RPick → GSt → ℕ → GSt × ℕ
  | [], st, picked => (st, picked)
  | item :: rest, st, picked =>
    let used' := usedAdd st.used item.c
    let alloc1 := ensureKey st.alloc item.a
    let cur := lookupD alloc1 item.a []
    let alloc2 :=
      if cur.length = 0 ∧ item.c ∉ cur then upsert item.a (cur ++ [item.c]) alloc1
      else alloc1
    let alloc3 := match satArea with
      | some sa =>
        let a1 := ensureKey alloc2 sa
        let curS := lookupD a1 sa []
        if item.c ∉ curS then upsert sa (curS ++ [item.c]) a1 else a1
      | none => alloc2
    let picked' := picked + 1
    if cnt ≤ picked' then (⟨used', alloc3⟩, picked')
    else requireLoop satArea cnt rest ⟨used', alloc3⟩ picked'

/-- Source `satisfyRequires` (`count || 1`: a falsy count means one). -/
def satisfyRequires (ctx : GCtx) (attr : String) (count : ℕ)
    (fromAreas : List String) (satArea : Option String) (st : GSt) :
    Bool × GSt :=
  let cnt := if count = 0 then 1 else count
  let pool := stableSortBy (fun x y : RPick => y.u ≤ x.u)
    (requirePool ctx attr fromAreas st.used)
  let r := requireLoop satArea cnt pool st 0
  (decide (cnt ≤ r.2), r.1)

/-! ## The GE logic tree and `walk`. -/

inductive GENode where
  | area (name : String) (min_courses : ℕ) (min_units : ℚ)
      (distinct_disciplines : ℕ)
  | bucket (name : String) (min_courses : ℕ) (min_units : ℚ)
      (distinct_disciplines : ℕ)
  | andN (nodes : List GENode) (min_total_courses : ℕ) (min_units : ℚ)
  | orN (nodes : List GENode) (display_as : Option String)
      (group : Option String)
  | requireN (attrName : String) (count : ℕ) (from_areas : List String)
      (satisfies_area : Option String)
  | otherNode

def isOpNode : GENode → Bool
  | GENode.andN _ _ _ => true
  | GENode.orN _ _ _ => true
  | _ => false

def isAreaNode : GENode → Bool
  | GENode.area _ _ _ _ => true
  | _ => false

def areaOrBucketName : GENode → Option String
  | GENode.area n _ _ _ => some n
  | GENode.bucket n _ _ _ => some n
  | _ => none

structure OrLog where
  label : String
  kidAreas : List String
  chosenArea : Option String
deriving DecidableEq

structure WOut where
  ok : Bool
  st : GSt
  logs : List OrLog
deriving DecidableEq

/-- Allocation step of an area/bucket leaf in `walk`: ensure the area key,
then push every chosen course that is not yet consumed and consume it. -/
def walkLeaf (ctx : GCtx) (name : String) (needC : ℕ) (needU : ℚ)
    (needD : ℕ) (st : GSt) : WOut :=
  let res := pickForArea ctx name needC needU needD st.used
  if res.chosen.isEmpty then ⟨res.satisfied, st, []⟩
  else
    let st0 : GSt := ⟨st.used, ensureKey st.alloc name⟩
    let st' := res.chosen.foldl (fun (s : GSt) c =>
      if c ∈ s.used then s
      else ⟨s.used ++ [c], pushAt s.alloc name c⟩) st0
    ⟨res.satisfied, st', []⟩

def walkRequires (ctx : GCtx) : List GENode → GSt → List Bool × GSt
  | [], st => ([], st)
  | n :: rest, st =>
    match n with
    | GENode.requireN attr cnt fa sa =>
      let r := satisfyRequires ctx attr cnt fa sa st
      let r2 := walkRequires ctx rest r.2
      (r.1 :: r2.1, r2.2)
    | _ => walkRequires ctx rest st

/-- Group-minimum top-up of an AND node: push unconsumed candidates of the
involved areas (highest units first) until the group course and unit
minima are met.  The pool is computed once; a course sitting in two
involved areas can be pushed into both allocations, as in the source. -/
def andFillLoop (minTC : ℕ) (minTU : ℚ) :
    List RPick → GSt → ℕ → ℚ → GSt × ℕ × ℚ
  | [], st, hc, hu => (st, hc, hu)
  | p :: rest, st, hc, hu =>
    let st' : GSt := ⟨usedAdd st.used p.c, pushAt st.alloc p.a p.c⟩
    let hc' := hc + 1
    let hu' := hu + p.u
    if minTC ≤ hc' ∧ minTU ≤ hu' then (st', hc', hu')
    else andFillLoop minTC minTU rest st' hc' hu'

def andGroupCheck (ctx : GCtx) (involvedAreas : List String) (minTC : ℕ)
    (minTU : ℚ) (st : GSt) : Bool × GSt :=
  let hcu := involvedAreas.foldl (fun (acc : ℕ × ℚ) a =>
    let list := lookupD st.alloc a []
    (acc.1 + list.length,
      acc.2 + (list.map (gUnitsFor ctx)).foldl (· + ·) 0)) (0, 0)
  if hcu.1 < minTC ∨ hcu.2 < minTU then
    let pools := stableSortBy (fun x y : RPick => y.u ≤ x.u)
      (involvedAreas.foldl (fun acc a =>
        acc ++ ((areaCandidates ctx a).filter (fun c => c ∉ st.used)).map
          (fun c => (⟨a, c, gUnitsFor ctx c⟩ : RPick))) [])
    let r := andFillLoop minTC minTU pools st hcu.1 hcu.2
    (decide (minTC ≤ r.2.1) && decide (minTU ≤ r.2.2), r.1)
  else
    (decide (minTC ≤ hcu.1) && decide (minTU ≤ hcu.2), st)

/-- Delta score of an OR trial: courses and units present in the trial
allocation but not in the snapshot. -/
def deltaScore (ctx : GCtx) (before after : List (String × List String)) :
    ℚ × ℕ :=
  let areas := dedupKeepFirst (after.map (fun e => e.1) ++ before.map (fun e => e.1))
  areas.foldl (fun (acc : ℚ × ℕ) a =>
    let bset := lookupD before a []
    (lookupD after a []).foldl (fun (acc2 : ℚ × ℕ) c =>
      if c ∈ bset then acc2 else (acc2.1 + gUnitsFor ctx c, acc2.2 + 1)) acc)
    (0, 0)

structure Choice where
  idx : ℕ
  ok : Bool
  units : ℚ
  courses : ℕ
deriving DecidableEq

/-- Preference of the source OR search: a satisfied child beats an
unsatisfied one; with equal satisfied-status, more units, then more
courses. -/
def choiceBetter (b a : Choice) : Bool :=
  (b.ok && !a.ok) ||
  (b.ok = a.ok && (a.units < b.units ||
    (b.units = a.units && a.courses < b.courses)))

def orChoicesGo (ctx : GCtx) (st : GSt) : ℕ → List WOut → List Choice
  | _, [] => []
  | i, t :: rest =>
    let sc := deltaScore ctx st.alloc t.st.alloc
    ⟨i, t.ok, sc.1, sc.2⟩ :: orChoicesGo ctx st (i + 1) rest

/-- The scored trial list of the OR branch: one `Choice` per child, indexed
in child order, carrying the trial's satisfied flag and its delta score
against the snapshot. -/
def orChoicesOf (ctx : GCtx) (st : GSt) (trials : List WOut) : List Choice :=
  orChoicesGo ctx st 0 trials

/-- The fold of the source: the first child starts as best, a later child
replaces it only when strictly better. -/
def orBestChoice : List Choice → Option Choice
  | [] => none
  | c :: rest =>
    some (rest.foldl (fun best ch => if choiceBetter ch best then ch else best) c)

def trimStr (s : String) : String := ⟨trimChars s.data⟩

def strJoin (sep : String) : List String → String
  | [] => ""
  | [x] => x
  | x :: xs => x ++ sep ++ strJoin sep xs

/-- Label of an OR group: trimmed `display_as` when nonempty, else `group`,
else the child areas joined with a slash, else `OR`. -/
def orGroupLabel (disp grp : Option String) (kidAreas : List String) : String :=
  let d := match disp with
    | some s => if s = "" then "" else trimStr s
    | none => ""
  if d ≠ "" then d
  else
    match grp with
    | some g =>
      if g ≠ "" then g
      else if kidAreas ≠ [] then strJoin "/" kidAreas else "OR"
    | none => if kidAreas ≠ [] then strJoin "/" kidAreas else "OR"

mutual

/-- Source `walk` of `evaluateGE`.  The OR branch trial-evaluates every
child against the entry state (the snapshot/restore of the source is state
passing here), scores the deltas, and commits the best trial; because the
embedding is pure, the committed re-run of the source equals the recorded
trial, including its or-group log. -/
def walk (ctx : GCtx) : GENode → GSt → WOut
  | GENode.area name needC needU needD, st => walkLeaf ctx name needC needU needD st
  | GENode.bucket name needC needU needD, st => walkLeaf ctx name needC needU needD st
  | GENode.andN sub minTC minTU, st =>
    let r1 := walkFiltered ctx isOpNode sub st
    let r2 := walkFiltered ctx isAreaNode sub r1.2.1
    let r3 := walkRequires ctx sub r2.2.1
    let involvedAreas := sub.filterMap areaOrBucketName
    if minTC ≠ 0 ∨ minTU ≠ 0 then
      let g := andGroupCheck ctx involvedAreas minTC minTU r3.2
      ⟨(r1.1 ++ r2.1 ++ r3.1 ++ [g.1]).all (fun b => b), g.2,
        r1.2.2 ++ r2.2.2⟩
    else
      ⟨(r1.1 ++ r2.1 ++ r3.1).all (fun b => b), r3.2, r1.2.2 ++ r2.2.2⟩
  | GENode.orN kids disp grp, st =>
    let kidAreas := kids.filterMap areaOrBucketName
    let groupLabel := orGroupLabel disp grp kidAreas
    let trials := walkTrials ctx kids st
    let trialLogs := trials.foldl (fun acc t => acc ++ t.logs) []
    match orBestChoice (orChoicesOf ctx st trials) with
    | none => ⟨false, st, trialLogs⟩
    | some best =>
      let commit := trials.getD best.idx ⟨false, st, []⟩
      let st1 := commit.st
      let chosenArea : Option String :=
        match kidAreas.find? (fun a => !(lookupD st1.alloc a []).isEmpty) with
        | some a => some a
        | none => kidAreas.head?
      let st2 : GSt := ⟨st1.used,
        upsert groupLabel
          (match chosenArea with
           | some a => lookupD st1.alloc a []
           | none => []) st1.alloc⟩
      ⟨true, st2, trialLogs ++ commit.logs ++ [⟨groupLabel, kidAreas, chosenArea⟩]⟩
  | GENode.requireN _ _ _ _, st => ⟨true, st, []⟩
  | GENode.otherNode, st => ⟨true, st, []⟩

/-- Walk the children satisfying `p` in order, threading state (the
partitioned child loops of the AND branch). -/
def walkFiltered (ctx : GCtx) (p : GENode → Bool) :
    List GENode → GSt → List Bool × GSt × List OrLog
  | [], st => ([], st, [])
  | n :: rest, st =>
    if p n then
      let r := walk ctx n st
      let r2 := walkFiltered ctx p rest r.st
      (r.ok :: r2.1, r2.2.1, r.logs ++ r2.2.2)
    else walkFiltered ctx p rest st

/-- Trial-evaluate every OR child against the same entry state. -/
def walkTrials (ctx : GCtx) : List GENode → GSt → List WOut
  | [], _ => []
  | k :: rest, st => walk ctx k st :: walkTrials ctx rest st

end

/-! ## Claim C1: single consumption of every code. -/

def ctx1 : GCtx := ⟨[("1A", ["CHEM 1"]), ("1B", ["CHEM 1"])],
  [("lab", ["CHEM 1"])], ["CHEM 1"], [], [], fun _ => 4⟩

def c1node : GENode :=
  GENode.andN [GENode.requireN "lab" 2 ["1A", "1B"] none] 0 0

/-- C1 failing input: a lab-attribute requirement of count 2 drawing from
areas 1A and 1B whose buckets share the single course CHEM 1.  The
evaluation declares the requirement satisfied while consuming only one
course, and allocates that one course under BOTH areas — one code matched
to two different area allocations in one `evaluateGE` walk. -/
theorem c1_require_double_allocation :
    (walk ctx1 c1node ⟨[], []⟩).ok = true ∧
    (walk ctx1 c1node ⟨[], []⟩).st.used = ["CHEM 1"] ∧
    lookupD (walk ctx1 c1node ⟨[], []⟩).st.alloc "1A" [] = ["CHEM 1"] ∧
    lookupD (walk ctx1 c1node ⟨[], []⟩).st.alloc "1B" [] = ["CHEM 1"] := by
  with_unfolding_all decide

/-! ## Claim C4: dead second pass of `pickForArea`. -/

theorem usedAdd_self (used : List String) (c : String) : c ∈ usedAdd used c := by
  unfold usedAdd
  by_cases h : c ∈ used <;> simp [h]

theorem usedAdd_subset {used : List String} {x : String} (c : String)
    (h : x ∈ used) : x ∈ usedAdd used c := by
  unfold usedAdd
  by_cases hc : c ∈ used <;> simp [hc, h]

/-- After an exhaustive first pass that still falls short of the unit
minimum, every ranked candidate is either chosen or discipline-filtered. -/
theorem areaPass1_coverage (ctx : GCtx) (needC : ℕ) (needU : ℚ) (needD : ℕ) :
    ∀ (idx : List Scored) (ch : List String) (units : ℚ) (seen : List String),
      (areaPass1 ctx needC needU needD idx ch units seen).2.1 < needU →
      (∀ x ∈ ch, x ∈ (areaPass1 ctx needC needU needD idx ch units seen).1) ∧
      (∀ p ∈ seen, p ∈ (areaPass1 ctx needC needU needD idx ch units seen).2.2) ∧
      (∀ it ∈ idx, it.c ∈ (areaPass1 ctx needC needU needD idx ch units seen).1 ∨
        (needD ≠ 0 ∧ gPrefKey ctx it.c ∈
          (areaPass1 ctx needC needU needD idx ch units seen).2.2)) := by
  intro idx
  induction idx with
  | nil =>
    intro ch units seen _
    refine ⟨fun x hx => ?_, fun p hp => ?_, fun it hit => ?_⟩
    · simpa [areaPass1] using hx
    · simpa [areaPass1] using hp
    · simp at hit
  | cons it rest ih =>
    intro ch units seen hshort
    by_cases hskip : needD ≠ 0 ∧ gPrefKey ctx it.c ∈ seen
    · have hr : areaPass1 ctx needC needU needD (it :: rest) ch units seen =
          areaPass1 ctx needC needU needD rest ch units seen := by
        simp [areaPass1, hskip]
      rw [hr] at hshort ⊢
      obtain ⟨m1, m2, m3⟩ := ih ch units seen hshort
      refine ⟨m1, m2, fun x hx => ?_⟩
      rcases List.mem_cons.mp hx with rfl | hx
      · exact Or.inr ⟨hskip.1, m2 _ hskip.2⟩
      · exact m3 x hx
    · by_cases hstop : needC ≤ ch.length + 1 ∧ needU ≤ units + it.u
      · have hr : areaPass1 ctx needC needU needD (it :: rest) ch units seen =
            (ch ++ [it.c], units + it.u, usedAdd seen (gPrefKey ctx it.c)) := by
          simp [areaPass1, hskip, hstop]
        rw [hr] at hshort
        exact absurd hstop.2 (not_le.mpr hshort)
      · have hr : areaPass1 ctx needC needU needD (it :: rest) ch units seen =
            areaPass1 ctx needC needU needD rest (ch ++ [it.c]) (units + it.u)
              (usedAdd seen (gPrefKey ctx it.c)) := by
          simp [areaPass1, hskip, hstop]
        rw [hr] at hshort ⊢
        obtain ⟨m1, m2, m3⟩ := ih (ch ++ [it.c]) (units + it.u)
          (usedAdd seen (gPrefKey ctx it.c)) hshort
        refine ⟨fun x hx => m1 x (by simp [hx]), fun p hp =>
          m2 p (usedAdd_subset _ hp), fun x hx => ?_⟩
        rcases List.mem_cons.mp hx with rfl | hx
        · exact Or.inl (m1 _ (by simp))
        · exact m3 x hx

/-- The second pass adds nothing when every candidate is already chosen or
discipline-filtered — its discipline filter is identical to the first
pass's. -/
theorem areaPass2_id (ctx : GCtx) (needU : ℚ) (needD : ℕ) :
    ∀ (idx : List Scored) (ch : List String) (units : ℚ) (seen : List String),
      (∀ it ∈ idx, it.c ∈ ch ∨ (needD ≠ 0 ∧ gPrefKey ctx it.c ∈ seen)) →
      areaPass2 ctx needU needD idx ch units seen = (ch, units, seen) := by
  intro idx
  induction idx with
  | nil => intro ch units seen _; rfl
  | cons it rest ih =>
    intro ch units seen hall
    rcases hall it (by simp) with hin | hskip
    · rw [show areaPass2 ctx needU needD (it :: rest) ch units seen =
          areaPass2 ctx needU needD rest ch units seen by simp [areaPass2, hin]]
      exact ih ch units seen (fun x hx => hall x (by simp [hx]))
    · by_cases hin : it.c ∈ ch
      · rw [show areaPass2 ctx needU needD (it :: rest) ch units seen =
            areaPass2 ctx needU needD rest ch units seen by simp [areaPass2, hin]]
        exact ih ch units seen (fun x hx => hall x (by simp [hx]))
      · rw [show areaPass2 ctx needU needD (it :: rest) ch units seen =
            areaPass2 ctx needU needD rest ch units seen by
          simp [areaPass2, hin, hskip]]
        exact ih ch units seen (fun x hx => hall x (by simp [hx]))

/-- The second pass of `pickForArea` is dead code: whenever it runs (units
short after pass 1), it returns its input unchanged. -/
theorem pickForArea_second_pass_dead (ctx : GCtx) (needC : ℕ) (needU : ℚ)
    (needD : ℕ) (sorted : List Scored)
    (h : (areaPass1 ctx needC needU needD sorted [] 0 []).2.1 < needU) :
    areaPass2 ctx needU needD sorted
      (areaPass1 ctx needC needU needD sorted [] 0 []).1
      (areaPass1 ctx needC needU needD sorted [] 0 []).2.1
      (areaPass1 ctx needC needU needD sorted [] 0 []).2.2 =
      areaPass1 ctx needC needU needD sorted [] 0 [] := by
  obtain ⟨-, -, m3⟩ := areaPass1_coverage ctx needC needU needD sorted [] 0 [] h
  rw [areaPass2_id ctx needU needD sorted _ _ _ m3]

def ctx4 : GCtx := ⟨[("A", ["MATH 1", "MATH 2"])], [], ["MATH 1", "MATH 2"],
  [], [], fun _ => 3⟩

/-- C4 failing input: area A needs 1 course and 6 units with distinct
disciplines required; candidates are the 3-unit courses MATH 1 and MATH 2
of the same discipline.  The first pass takes MATH 1 and skips MATH 2; the
second pass — which per the spec ignores the discipline cap — skips MATH 2
again, leaving the area at 3 of 6 units, unsatisfied, with an unconsumed
candidate available. -/
theorem c4_second_pass_filters_disciplines :
    (pickForArea ctx4 "A" 1 6 1 []).chosen = ["MATH 1"] ∧
    (pickForArea ctx4 "A" 1 6 1 []).units = 3 ∧
    (pickForArea ctx4 "A" 1 6 1 []).satisfied = false ∧
    "MATH 2" ∈ areaCandidates ctx4 "A" ∧
    "MATH 2" ∉ (pickForArea ctx4 "A" 1 6 1 []).chosen := by
  with_unfolding_all decide

/-! ## Claim C2: the OR search always commits a satisfiable child. -/

theorem choiceBetter_eq_true {b a : Choice} :
    choiceBetter b a = true ↔
      ((b.ok = true ∧ a.ok = false) ∨
       (b.ok = a.ok ∧ (a.units < b.units ∨
         (b.units = a.units ∧ a.courses < b.courses)))) := by
  simp [choiceBetter, Bool.or_eq_true, Bool.and_eq_true, decide_eq_true_eq,
    Bool.not_eq_true']

theorem choiceBetter_irrefl (x : Choice) : choiceBetter x x = false := by
  rw [Bool.eq_false_iff]
  intro h
  rcases choiceBetter_eq_true.mp h with ⟨h1, h2⟩ | ⟨_, h2 | ⟨_, h2⟩⟩
  · rw [h1] at h2; simp at h2
  · exact lt_irrefl _ h2
  · exact lt_irrefl _ h2

theorem choiceBetter_trans {x c a : Choice} (h1 : choiceBetter x c = true)
    (h2 : choiceBetter c a = true) : choiceBetter x a = true := by
  rw [choiceBetter_eq_true] at h1 h2 ⊢
  rcases h1 with ⟨hx, hc⟩ | ⟨he1, hl1⟩
  · rcases h2 with ⟨hc', _⟩ | ⟨he2, _⟩
    · rw [hc'] at hc; simp at hc
    · exact Or.inl ⟨hx, he2 ▸ hc⟩
  · rcases h2 with ⟨hc', ha⟩ | ⟨he2, hl2⟩
    · exact Or.inl ⟨he1 ▸ hc', ha⟩
    · refine Or.inr ⟨he1.trans he2, ?_⟩
      rcases hl1 with hu1 | ⟨hequ1, hco1⟩
      · rcases hl2 with hu2 | ⟨hequ2, _⟩
        · exact Or.inl (hu2.trans hu1)
        · exact Or.inl (hequ2 ▸ hu1)
      · rcases hl2 with hu2 | ⟨hequ2, hco2⟩
        · exact Or.inl (hequ1 ▸ hu2)
        · exact Or.inr ⟨hequ1.trans hequ2, hco2.trans hco1⟩

theorem choiceBetter_asymm {x y : Choice} (h : choiceBetter x y = true) :
    choiceBetter y x = false := by
  rw [Bool.eq_false_iff]
  intro h2
  have := choiceBetter_trans h h2
  rw [choiceBetter_irrefl] at this
  simp at this

theorem choiceFold_max :
    ∀ (rest : List Choice) (acc : Choice),
      (∀ p : Choice, choiceBetter p acc = false →
        choiceBetter p (rest.foldl
          (fun best ch => if choiceBetter ch best then ch else best) acc) = false) ∧
      (∀ x ∈ rest, choiceBetter x (rest.foldl
        (fun best ch => if choiceBetter ch best then ch else best) acc) = false) := by
  intro rest
  induction rest with
  | nil => intro acc; exact ⟨fun p hp => by simpa using hp, fun x hx => by simp at hx⟩
  | cons ch cs ih =>
    intro acc
    by_cases hb : choiceBetter ch acc = true
    · have hstep : (ch :: cs).foldl
          (fun best ch => if choiceBetter ch best then ch else best) acc =
          cs.foldl (fun best ch => if choiceBetter ch best then ch else best) ch := by
        simp [hb]
      rw [hstep]
      obtain ⟨t1, t2⟩ := ih ch
      have transport : ∀ p : Choice, choiceBetter p acc = false →
          choiceBetter p (cs.foldl
            (fun best ch => if choiceBetter ch best then ch else best) ch) = false := by
        intro p hp
        refine t1 p ?_
        rw [Bool.eq_false_iff]
        intro hpch
        have := choiceBetter_trans hpch hb
        rw [hp] at this
        simp at this
      refine ⟨transport, fun x hx => ?_⟩
      rcases List.mem_cons.mp hx with rfl | hx
      · exact t1 x (choiceBetter_irrefl x)
      · exact t2 x hx
    · have hstep : (ch :: cs).foldl
          (fun best ch => if choiceBetter ch best then ch else best) acc =
          cs.foldl (fun best ch => if choiceBetter ch best then ch else best) acc := by
        simp [hb]
      rw [hstep]
      obtain ⟨t1, t2⟩ := ih acc
      refine ⟨t1, fun x hx => ?_⟩
      rcases List.mem_cons.mp hx with rfl | hx
      · exact t1 x (Bool.eq_false_iff.mpr hb)
      · exact t2 x hx

theorem choiceFold_ok :
    ∀ (rest : List Choice) (acc : Choice),
      (acc.ok = true ∨ ∃ x ∈ rest, x.ok = true) →
      (rest.foldl (fun best ch => if choiceBetter ch best then ch else best)
        acc).ok = true := by
  intro rest
  induction rest with
  | nil => intro acc h; simpa using h.resolve_right (by simp)
  | cons ch cs ih =>
    intro acc h
    by_cases hb : choiceBetter ch acc = true
    · rw [show (ch :: cs).foldl
          (fun best ch => if choiceBetter ch best then ch else best) acc =
          cs.foldl (fun best ch => if choiceBetter ch best then ch else best) ch by
        simp [hb]]
      refine ih ch ?_
      rcases h with hacc | ⟨x, hx, hxok⟩
      · left
        rcases choiceBetter_eq_true.mp hb with ⟨hok, _⟩ | ⟨heq, _⟩
        · exact hok
        · exact heq.trans hacc
      · rcases List.mem_cons.mp hx with rfl | hx
        · exact Or.inl hxok
        · exact Or.inr ⟨x, hx, hxok⟩
    · rw [show (ch :: cs).foldl
          (fun best ch => if choiceBetter ch best then ch else best) acc =
          cs.foldl (fun best ch => if choiceBetter ch best then ch else best) acc by
        simp [hb]]
      refine ih acc ?_
      rcases h with hacc | ⟨x, hx, hxok⟩
      · exact Or.inl hacc
      · rcases List.mem_cons.mp hx with rfl | hx
        · left
          by_contra haccok
          have haccf : acc.ok = false := by
            cases hacc : acc.ok
            · rfl
            · exact absurd hacc haccok
          exact hb (choiceBetter_eq_true.mpr (Or.inl ⟨hxok, haccf⟩))
        · exact Or.inr ⟨x, hx, hxok⟩

theorem choiceFold_mem :
    ∀ (rest : List Choice) (acc : Choice),
      (rest.foldl (fun best ch => if choiceBetter ch best then ch else best)
        acc) = acc ∨
      (rest.foldl (fun best ch => if choiceBetter ch best then ch else best)
        acc) ∈ rest := by
  intro rest
  induction rest with
  | nil => intro acc; exact Or.inl rfl
  | cons ch cs ih =>
    intro acc
    by_cases hb : choiceBetter ch acc = true
    · rw [show (ch :: cs).foldl
          (fun best ch => if choiceBetter ch best then ch else best) acc =
          cs.foldl (fun best ch => if choiceBetter ch best then ch else best) ch by
        simp [hb]]
      rcases ih ch with heq | hmem
      · exact Or.inr (by simp [heq])
      · exact Or.inr (by simp [hmem])
    · rw [show (ch :: cs).foldl
          (fun best ch => if choiceBetter ch best then ch else best) acc =
          cs.foldl (fun best ch => if choiceBetter ch best then ch else best) acc by
        simp [hb]]
      rcases ih acc with heq | hmem
      · exact Or.inl heq
      · exact Or.inr (by simp [hmem])

theorem orBestChoice_mem {l : List Choice} {b : Choice}
    (h : orBestChoice l = some b) : b ∈ l := by
  cases l with
  | nil => simp [orBestChoice] at h
  | cons c rest =>
    have hb : b = rest.foldl
        (fun best ch => if choiceBetter ch best then ch else best) c := by
      simpa [orBestChoice] using h.symm
    subst hb
    rcases choiceFold_mem rest c with heq | hmem
    · simp [heq]
    · simp [hmem]

theorem orBestChoice_spec {l : List Choice} {b : Choice}
    (h : orBestChoice l = some b) :
    (∀ x ∈ l, choiceBetter x b = false) ∧
    ((∃ x ∈ l, x.ok = true) → b.ok = true) := by
  cases l with
  | nil => simp [orBestChoice] at h
  | cons c rest =>
    have hb : b = rest.foldl
        (fun best ch => if choiceBetter ch best then ch else best) c := by
      simpa [orBestChoice] using h.symm
    subst hb
    obtain ⟨t1, t2⟩ := choiceFold_max rest c
    constructor
    · intro x hx
      rcases List.mem_cons.mp hx with rfl | hx
      · exact t1 x (choiceBetter_irrefl x)
      · exact t2 x hx
    · rintro ⟨x, hx, hxok⟩
      refine choiceFold_ok rest c ?_
      rcases List.mem_cons.mp hx with rfl | hx
      · exact Or.inl hxok
      · exact Or.inr ⟨x, hx, hxok⟩

theorem walkTrials_get? (ctx : GCtx) (st : GSt) :
    ∀ (kids : List GENode) (i : ℕ) (k : GENode),
      kids.get? i = some k →
      (walkTrials ctx kids st).get? i = some (walk ctx k st) := by
  intro kids
  induction kids with
  | nil => intro i k h; simp at h
  | cons x rest ih =>
    intro i k h
    cases i with
    | zero =>
      simp at h
      subst h
      rfl
    | succ j =>
      simp only [List.get?] at h
      exact ih j k h

theorem walkTrials_get?_rev (ctx : GCtx) (st : GSt) :
    ∀ (kids : List GENode) (i : ℕ) (t : WOut),
      (walkTrials ctx kids st).get? i = some t →
      ∃ k, kids.get? i = some k ∧ t = walk ctx k st := by
  intro kids
  induction kids with
  | nil => intro i t h; simp [walkTrials] at h
  | cons x rest ih =>
    intro i t h
    cases i with
    | zero =>
      refine ⟨x, rfl, ?_⟩
      have : walk ctx x st = t := by
        simpa [walkTrials] using h
      exact this.symm
    | succ j =>
      have : (walkTrials ctx rest st).get? j = some t := by
        simpa [walkTrials] using h
      exact ih j t this

theorem orChoicesGo_mem (ctx : GCtx) (st : GSt) :
    ∀ (trials : List WOut) (n : ℕ) (ch : Choice),
      ch ∈ orChoicesGo ctx st n trials →
      ∃ i t, trials.get? i = some t ∧ ch.idx = n + i ∧ ch.ok = t.ok := by
  intro trials
  induction trials with
  | nil => intro n ch h; simp [orChoicesGo] at h
  | cons t rest ih =>
    intro n ch h
    simp only [orChoicesGo] at h
    rcases List.mem_cons.mp h with rfl | h
    · exact ⟨0, t, rfl, by simp, rfl⟩
    · obtain ⟨i, t', h1, h2, h3⟩ := ih (n + 1) ch h
      exact ⟨i + 1, t', by simpa using h1, by omega, h3⟩

theorem orChoicesGo_of_get? (ctx : GCtx) (st : GSt) :
    ∀ (trials : List WOut) (n i : ℕ) (t : WOut),
      trials.get? i = some t →
      ∃ ch ∈ orChoicesGo ctx st n trials, ch.ok = t.ok ∧ ch.idx = n + i := by
  intro trials
  induction trials with
  | nil => intro n i t h; simp at h
  | cons x rest ih =>
    intro n i t h
    cases i with
    | zero =>
      simp at h
      subst h
      refine ⟨⟨n, x.ok, (deltaScore ctx st.alloc x.st.alloc).1,
        (deltaScore ctx st.alloc x.st.alloc).2⟩, ?_, rfl, by simp⟩
      simp [orChoicesGo]
    | succ j =>
      simp only [List.get?] at h
      obtain ⟨ch, hmem, hok, hidx⟩ := ih (n + 1) j t h
      exact ⟨ch, by simp [orChoicesGo, hmem], hok, by omega⟩

/-- C2: in the OR branch, every child is trial-evaluated against the entry
state (the restored snapshot), the best-scoring choice is maximal for the
source preference (satisfied beats unsatisfied, then more units, then more
courses), and whenever at least one child is satisfiable the best choice is
satisfiable, its committed re-run — `walk` of that child from the same
state — is satisfied, and the OR node reports ok. -/
theorem c2_or_best_satisfiable (ctx : GCtx) (kids : List GENode)
    (disp grp : Option String) (st : GSt)
    (h : ∃ k ∈ kids, (walk ctx k st).ok = true) :
    ∃ best k, orBestChoice (orChoicesOf ctx st (walkTrials ctx kids st)) = some best ∧
      kids.get? best.idx = some k ∧
      best.ok = true ∧
      (walk ctx k st).ok = true ∧
      (∀ ch ∈ orChoicesOf ctx st (walkTrials ctx kids st),
        choiceBetter ch best = false) ∧
      (walk ctx (GENode.orN kids disp grp) st).ok = true := by
  obtain ⟨k0, hk0, hk0ok⟩ := h
  obtain ⟨i0, hi0⟩ := List.get?_of_mem hk0
  have htr0 := walkTrials_get? ctx st kids i0 k0 hi0
  obtain ⟨ch0, hch0mem, hch0ok, _⟩ :=
    orChoicesGo_of_get? ctx st (walkTrials ctx kids st) 0 i0 (walk ctx k0 st) htr0
  have hnonempty : orChoicesOf ctx st (walkTrials ctx kids st) ≠ [] := by
    intro hempty
    rw [show orChoicesOf ctx st (walkTrials ctx kids st) =
      orChoicesGo ctx st 0 (walkTrials ctx kids st) from rfl] at hempty
    rw [hempty] at hch0mem
    simp at hch0mem
  obtain ⟨best, hbest⟩ : ∃ b,
      orBestChoice (orChoicesOf ctx st (walkTrials ctx kids st)) = some b := by
    cases hl : orChoicesOf ctx st (walkTrials ctx kids st) with
    | nil => exact absurd hl hnonempty
    | cons c rest => exact ⟨_, rfl⟩
  obtain ⟨hmax, hok⟩ := orBestChoice_spec hbest
  have hbestok : best.ok = true := by
    refine hok ⟨ch0, hch0mem, ?_⟩
    rw [hch0ok, hk0ok]
  have hbestmem : best ∈ orChoicesOf ctx st (walkTrials ctx kids st) :=
    orBestChoice_mem hbest
  obtain ⟨i, t, htr, hidx, hbok⟩ :=
    orChoicesGo_mem ctx st (walkTrials ctx kids st) 0 best hbestmem
  obtain ⟨k, hki, hkt⟩ := walkTrials_get?_rev ctx st kids i t htr
  refine ⟨best, k, hbest, ?_, hbestok, ?_, hmax, ?_⟩
  · rw [hidx]; simpa using hki
  · rw [← hkt, ← hbok]
    exact hbestok
  ·
    rw [show walk ctx (GENode.orN kids disp grp) st =
        (let kidAreas := kids.filterMap areaOrBucketName
        let groupLabel := orGroupLabel disp grp kidAreas
        let trials := walkTrials ctx kids st
        let trialLogs := trials.foldl (fun acc t => acc ++ t.logs) []
        match orBestChoice (orChoicesOf ctx st trials) with
        | none => (⟨false, st, trialLogs⟩ : WOut)
        | some b =>
          let commit := trials.getD b.idx ⟨false, st, []⟩
          let st1 := commit.st
          let chosenArea : Option String :=
            match kidAreas.find? (fun a => !(lookupD st1.alloc a []).isEmpty) with
            | some a => some a
            | none => kidAreas.head?
          let st2 : GSt := ⟨st1.used,
            upsert groupLabel
              (match chosenArea with
               | some a => lookupD st1.alloc a []
               | none => []) st1.alloc⟩
          ⟨true, st2, trialLogs ++ commit.logs ++ [⟨groupLabel, kidAreas, chosenArea⟩]⟩)
      from by rw [walk]]
    simp only [hbest]

def ctx2 : GCtx := ⟨[("1B", ["B1"]), ("1C", [])], [], ["B1"], [], [],
  fun _ => 3⟩

def c2kids : List GENode := [GENode.area "1B" 1 0 0, GENode.area "1C" 1 0 0]

def c2st : GSt := ⟨[], []⟩

/-- Witness for C2 on scenario 4 of the spec: `OR(Area 1B, Area 1C)` with a
single course only in bucket 1B resolves to the satisfiable child 1B. -/
theorem c2_or_best_satisfiable_witness :
    (∃ k ∈ c2kids, (walk ctx2 k c2st).ok = true) ∧
    (∃ best k,
      orBestChoice (orChoicesOf ctx2 c2st (walkTrials ctx2 c2kids c2st)) =
        some best ∧
      c2kids.get? best.idx = some k ∧
      best.ok = true ∧
      (walk ctx2 k c2st).ok = true ∧
      (∀ ch ∈ orChoicesOf ctx2 c2st (walkTrials ctx2 c2kids c2st),
        choiceBetter ch best = false) ∧
      (walk ctx2 (GENode.orN c2kids none none) c2st).ok = true) :=
  ⟨⟨GENode.area "1B" 1 0 0, by simp [c2kids], by with_unfolding_all decide⟩,
   c2_or_best_satisfiable ctx2 c2kids none none c2st
     ⟨GENode.area "1B" 1 0 0, by simp [c2kids], by with_unfolding_all decide⟩⟩

/-! ## Prerequisite tree evaluator (`evalPrereqNode`).

The node shapes of the source are `{op:'AND'|'OR', nodes}`, `{course,
CompletionOrder}`, `{text, CompletionOrder}` and null/unknown; missing
descriptions are strings or nested arrays, modelled by the rose tree
`POpt`.  The evaluation is pure in the source (it only reads the taken-set)
and is a pure function here. -/

inductive PrereqNode where
  | andP (nodes : List PrereqNode)
  | orP (nodes : List PrereqNode)
  | courseRef (course : String) (concurrent : Bool)
  | textRef (text : String) (concurrent : Bool)
  | nullNode

inductive POpt where
  | str (s : String)
  | group (l : List POpt)

structure PRes where
  met : Bool
  options : List POpt
  singleOption : Option String

def strContains (s pat : String) : Bool := isSubSeq pat.data s.data

def prereqMathCourses : List String :=
  ["MATH 12", "MATH 13", "MATH 18", "MATH 20", "MATH 30", "MATH 31",
   "MATH 32", "MATH 42"]

mutual

/-- Source `evalPrereqNode`; `userExams` holds `(program, exam)` pairs of
the declared exams consulted by the text heuristics. -/
def evalPrereqNode (ctx : PCtx) (userExams : List (String × String))
    (takenSet : List String) : PrereqNode → PRes
  | PrereqNode.andP ns =>
    let results := evalPrereqList ctx userExams takenSet ns
    let allMet := results.all (fun r => r.met)
    ⟨allMet,
      if allMet then []
      else (results.filter (fun r => !r.met)).map (fun r => POpt.group r.options),
      none⟩
  | PrereqNode.orP ns =>
    let results := evalPrereqList ctx userExams takenSet ns
    let anyMet := results.any (fun r => r.met)
    let allOptions := results.foldl (fun acc r =>
      acc ++ (match r.singleOption with
        | some s => if s = "" then r.options else [POpt.str s]
        | none => r.options)) []
    ⟨anyMet, if anyMet then [] else allOptions, none⟩
  | PrereqNode.courseRef course concurrent =>
    if concurrent then ⟨true, [], some course⟩
    else
      let code := normalizeCode course
      let met : Bool := code ∈ takenSet ∨ canonicalizeCode ctx code ∈ takenSet
      ⟨met, if met then [] else [POpt.str code], some code⟩
  | PrereqNode.textRef text concurrent =>
    if concurrent then ⟨true, [], some text⟩
    else
      let txt := lowerStr text
      if strContains txt "high school chemistry" ∨
          (strContains txt "year of" ∧ strContains txt "chemistry") then
        let met : Bool := userExams.any
          (fun e => e.1 = "Other" ∧ e.2 = "HS Chemistry (1 year)")
        ⟨met,
          if met then [] else [POpt.str "HS Chemistry (or take CHEM 11/CHEM 51)"],
          some "HS_CHEMISTRY"⟩
      else if strContains txt "intermediate algebra" ∨
          (strContains txt "algebra" ∧ strContains txt "equivalent") then
        let hasMath : Bool := prereqMathCourses.any (fun c =>
          normalizeCode c ∈ takenSet ∨ canonicalizeCode ctx c ∈ takenSet)
        let hasHSAlgebra : Bool := userExams.any
          (fun e => e.1 = "Other" ∧ e.2 = "Intermediate Algebra")
        let met := hasHSAlgebra || hasMath
        ⟨met, if met then [] else [POpt.str "Intermediate Algebra"],
          some "HS_INT_ALGEBRA"⟩
      else ⟨true, [], some txt⟩
  | PrereqNode.nullNode => ⟨true, [], none⟩

def evalPrereqList (ctx : PCtx) (userExams : List (String × String))
    (takenSet : List String) : List PrereqNode → List PRes
  | [] => []
  | n :: rest =>
    evalPrereqNode ctx userExams takenSet n ::
      evalPrereqList ctx userExams takenSet rest

end

theorem evalPrereqList_eq_map (ctx : PCtx) (userExams : List (String × String))
    (takenSet : List String) :
    ∀ ns : List PrereqNode,
      evalPrereqList ctx userExams takenSet ns =
        ns.map (evalPrereqNode ctx userExams takenSet) := by
  intro ns
  induction ns with
  | nil => rfl
  | cons n rest ih => simp [evalPrereqList, ih]

def c9tree : PrereqNode :=
  PrereqNode.andP [PrereqNode.courseRef "A" false,
    PrereqNode.orP [PrereqNode.courseRef "B" false,
      PrereqNode.courseRef "C" false]]

/-- C9: an And prerequisite node is met exactly when all children are met,
an Or node when any child is met; a course leaf flagged Concurrent is
always auto-satisfied; a non-concurrent course leaf referencing an
already-canonical code is met exactly when that code is taken; and the
scenario `And(A, Or(B, C))` with A and C taken is met.  The evaluation is a
pure function of the taken-set, which it never alters. -/
theorem c9_prereq_semantics (ctx : PCtx) (userExams : List (String × String))
    (takenSet : List String) :
    (∀ ns : List PrereqNode,
      (evalPrereqNode ctx userExams takenSet (PrereqNode.andP ns)).met =
        ns.all (fun n => (evalPrereqNode ctx userExams takenSet n).met)) ∧
    (∀ ns : List PrereqNode,
      (evalPrereqNode ctx userExams takenSet (PrereqNode.orP ns)).met =
        ns.any (fun n => (evalPrereqNode ctx userExams takenSet n).met)) ∧
    (∀ course : String,
      (evalPrereqNode ctx userExams takenSet
        (PrereqNode.courseRef course true)).met = true) ∧
    (∀ course : String, normalizeCode course = course →
      ctx.aliasMap course = none →
      ((evalPrereqNode ctx userExams takenSet
        (PrereqNode.courseRef course false)).met = true ↔ course ∈ takenSet)) ∧
    ((evalPrereqNode pctxTrivial [] ["A", "C"] c9tree).met = true) := by
  refine ⟨?_, ?_, ?_, ?_, by with_unfolding_all decide⟩
  · intro ns
    rw [show evalPrereqNode ctx userExams takenSet (PrereqNode.andP ns) =
      (let results := evalPrereqList ctx userExams takenSet ns
       let allMet := results.all (fun r => r.met)
       (⟨allMet,
        if allMet then []
        else (results.filter (fun r => !r.met)).map (fun r => POpt.group r.options),
        none⟩ : PRes)) from by rw [evalPrereqNode]]
    simp only [evalPrereqList_eq_map]
    have hmap : ∀ l : List PrereqNode,
        ((l.map (evalPrereqNode ctx userExams takenSet)).all fun r => r.met) =
          l.all fun n => (evalPrereqNode ctx userExams takenSet n).met := by
      intro l
      induction l with
      | nil => rfl
      | cons n rest ih => simp [ih]
    exact hmap ns
  · intro ns
    rw [show evalPrereqNode ctx userExams takenSet (PrereqNode.orP ns) =
      (let results := evalPrereqList ctx userExams takenSet ns
       let anyMet := results.any (fun r => r.met)
       let allOptions := results.foldl (fun acc r =>
         acc ++ (match r.singleOption with
           | some s => if s = "" then r.options else [POpt.str s]
           | none => r.options)) []
       (⟨anyMet, if anyMet then [] else allOptions, none⟩ : PRes)) from by
        rw [evalPrereqNode]]
    simp only [evalPrereqList_eq_map]
    have hmap : ∀ l : List PrereqNode,
        ((l.map (evalPrereqNode ctx userExams takenSet)).any fun r => r.met) =
          l.any fun n => (evalPrereqNode ctx userExams takenSet n).met := by
      intro l
      induction l with
      | nil => rfl
      | cons n rest ih => simp [ih]
    exact hmap ns
  · intro course
    rw [evalPrereqNode]
    simp
  · intro course hnorm halias
    rw [evalPrereqNode]
    simp only [if_false, Bool.false_eq_true, decide_eq_true_eq]
    constructor
    · intro h
      have h' : normalizeCode course ∈ takenSet ∨
          canonicalizeCode ctx (normalizeCode course) ∈ takenSet := by
        simpa using h
      rw [hnorm] at h'
      rcases h' with h' | h'
      · exact h'
      · rwa [show canonicalizeCode ctx course = course from by
          simp [canonicalizeCode, hnorm, halias]] at h'
    · intro h
      have hmem : normalizeCode course ∈ takenSet := by rw [hnorm]; exact h
      simp [hmem]

/-- Witness for the hypothesis-bearing course-leaf clause of C9. -/
theorem c9_prereq_semantics_witness :
    (normalizeCode "A" = "A" ∧ pctxTrivial.aliasMap "A" = none) ∧
    ((evalPrereqNode pctxTrivial [] ["A", "C"]
      (PrereqNode.courseRef "A" false)).met = true ↔ "A" ∈ ["A", "C"]) :=
  ⟨⟨by with_unfolding_all decide, rfl⟩,
   (c9_prereq_semantics pctxTrivial [] ["A", "C"]).2.2.2.1 "A"
     (by with_unfolding_all decide) rfl⟩

/-! ## Claim C8: an unpooled, uncoerced LIST section evaluates like ALL.

The proof is a simulation: changing the rule type of one section from LIST
to ALL maps the processed working state through `stMap`, every primitive of
the evaluator commutes with `stMap`, and every read the evaluator performs
is insensitive to the change. -/

/-- Rule-type change applied to a raw catalog section. -/
def setTypeAllRaw (s : SectionIn) : SectionIn :=
  { s with rule := s.rule.map (fun r => { r with type := some "ALL" }) }

def detailSetTypeAll (d : Detail) (k : ℕ) : Detail :=
  ⟨listModify k setTypeAllRaw d.sections, d.cross_list_rules⟩

section RuleMapSuite

variable (ρ : RuleIn → RuleIn)

/-- Apply a rule transformation to one processed section, leaving name and
items untouched. -/
def ruleMapSec (s : ESec) : ESec :=
  { s with rule := ρ s.rule }

def stMap (k : ℕ) (st : PState) : PState :=
  ⟨listModify k (ruleMapSec ρ) st.secs, st.used⟩

theorem listModify_get? {α : Type _} (f : α → α) :
    ∀ (l : List α) (i j : ℕ),
      (listModify i f l).get? j =
        if j = i then (l.get? j).map f else l.get? j := by
  intro l
  induction l with
  | nil => intro i j; simp [listModify]
  | cons a as ih =>
    intro i j
    cases i with
    | zero =>
      cases j with
      | zero => simp [listModify]
      | succ j' => simp [listModify]
    | succ i' =>
      cases j with
      | zero => simp [listModify]
      | succ j' =>
        simp only [listModify, List.get?]
        rw [ih i' j']
        by_cases h : j' = i' <;> simp [h]

theorem listModify_length {α : Type _} (f : α → α) :
    ∀ (l : List α) (i : ℕ), (listModify i f l).length = l.length := by
  intro l
  induction l with
  | nil => intro i; simp [listModify]
  | cons a as ih =>
    intro i
    cases i with
    | zero => simp [listModify]
    | succ i' => simpa [listModify] using ih i'

theorem foldl_ext_mem {α β : Type _} (f g : β → α → β) :
    ∀ (l : List α) (b : β), (∀ acc x, x ∈ l → f acc x = g acc x) →
      l.foldl f b = l.foldl g b := by
  intro l
  induction l with
  | nil => intro b _; rfl
  | cons a as ih =>
    intro b h
    simp only [List.foldl_cons]
    rw [h b a (List.mem_cons_self a as)]
    exact ih _ (fun acc x hx => h acc x (List.mem_cons_of_mem a hx))

theorem secAt_retype_eq_of_ne {secs : List ESec} {k i : ℕ} (h : i ≠ k) :
    secAt (listModify k (ruleMapSec ρ) secs) i = secAt secs i := by
  unfold secAt
  rw [listModify_get?]
  simp [h]

theorem ruleMapSec_name (s : ESec) : ((ruleMapSec ρ) s).name = s.name := rfl

theorem ruleMapSec_items (s : ESec) : ((ruleMapSec ρ) s).items = s.items := rfl

theorem secAt_retype_name (secs : List ESec) (k i : ℕ) :
    (secAt (listModify k (ruleMapSec ρ) secs) i).name = (secAt secs i).name := by
  unfold secAt
  rw [listModify_get?]
  by_cases h : i = k
  · subst h
    cases hx : secs.get? i <;> simp [hx, ruleMapSec_name]
  · simp [h]

theorem secAt_retype_items (secs : List ESec) (k i : ℕ) :
    (secAt (listModify k (ruleMapSec ρ) secs) i).items = (secAt secs i).items := by
  unfold secAt
  rw [listModify_get?]
  by_cases h : i = k
  · subst h
    cases hx : secs.get? i <;> simp [hx, ruleMapSec_items]
  · simp [h]

theorem getSec_stMap_name (k : ℕ) (st : PState) (si : ℕ) :
    (getSec (stMap ρ k st) si).name = (getSec st si).name :=
  secAt_retype_name ρ st.secs k si

theorem getSec_stMap_items (k : ℕ) (st : PState) (si : ℕ) :
    (getSec (stMap ρ k st) si).items = (getSec st si).items :=
  secAt_retype_items ρ st.secs k si

theorem getSec_stMap_of_ne {k si : ℕ} (st : PState) (h : si ≠ k) :
    getSec (stMap ρ k st) si = getSec st si :=
  secAt_retype_eq_of_ne ρ h

theorem getItem_stMap (k : ℕ) (st : PState) (si i : ℕ) :
    getItem (stMap ρ k st) si i = getItem st si i := by
  unfold getItem
  rw [getSec_stMap_items]

theorem stMap_used (k : ℕ) (st : PState) : (stMap ρ k st).used = st.used := rfl

theorem listModify_comm {α : Type _} (f g : α → α)
    (hfg : ∀ x, f (g x) = g (f x)) :
    ∀ (l : List α) (i j : ℕ),
      listModify i f (listModify j g l) = listModify j g (listModify i f l) := by
  intro l
  induction l with
  | nil => intro i j; simp [listModify]
  | cons a as ih =>
    intro i j
    cases i with
    | zero =>
      cases j with
      | zero => simp [listModify, hfg a]
      | succ j' => simp [listModify]
    | succ i' =>
      cases j with
      | zero => simp [listModify]
      | succ j' => simp [listModify, ih i' j']

theorem markAndUse_stMap (k : ℕ) (st : PState) (si i : ℕ) (pick : Opt) :
    markAndUse (stMap ρ k st) si i pick = stMap ρ k (markAndUse st si i pick) := by
  unfold markAndUse stMap
  simp only
  rw [listModify_comm (markSecFn i pick) (ruleMapSec ρ) (fun x => rfl)]

theorem poolIdx_stMap (k : ℕ) (st : PState) (L : String) :
    poolIdx (stMap ρ k st).secs L = poolIdx st.secs L := by
  unfold poolIdx
  rw [show (stMap ρ k st).secs.length = st.secs.length from
    listModify_length (ruleMapSec ρ) st.secs k]
  apply foldl_ext_mem
  intro acc i _
  rw [show secAt (stMap ρ k st).secs i = secAt (listModify k (ruleMapSec ρ) st.secs) i
    from rfl]
  rw [secAt_retype_name]

theorem totalItems_stMap (k : ℕ) (st : PState) :
    totalItems (stMap ρ k st) = totalItems st := by
  unfold totalItems
  congr 1
  show (listModify k (ruleMapSec ρ) st.secs).map (fun s => s.items.length) =
    st.secs.map (fun s => s.items.length)
  induction st.secs generalizing k with
  | nil => simp [listModify]
  | cons a as ih =>
    cases k with
    | zero => simp [listModify, ruleMapSec_items]
    | succ k' => simp [listModify, ih k']

/-- Pairing a mapped state with an unchanged payload. -/
def liftSt (k : ℕ) {β : Type _} (p : PState × β) : PState × β :=
  (stMap ρ k p.1, p.2)

theorem findAvailIn_stMap (taken : List String) (f : Opt → Bool) (k : ℕ)
    (st : PState) (si : ℕ) :
    ∀ idx, findAvailIn taken f (stMap ρ k st) si idx =
      findAvailIn taken f st si idx := by
  intro idx
  induction idx with
  | nil => rfl
  | cons i rest ih =>
    simp only [findAvailIn, getItem_stMap, stMap_used, ih]

theorem pickFromSecList_stMap (taken : List String) (f : Opt → Bool) (k si : ℕ)
    (L : String) (st : PState) (ch : List Pick) (got : ℚ) :
    pickFromSecList taken f si L (stMap ρ k st) ch got =
      (pickFromSecList taken f si L st ch got).map (liftSt ρ k) := by
  unfold pickFromSecList
  rw [getSec_stMap_items, findAvailIn_stMap]
  cases hfa : findAvailIn taken f st si
      (List.range (getSec st si).items.length) with
  | none => rfl
  | some pr =>
    obtain ⟨i, pick⟩ := pr
    simp [markAndUse_stMap, liftSt]

theorem pickWithFilterLists_stMap (taken : List String) (f : Opt → Bool)
    (k : ℕ) :
    ∀ (ls : List String) (st : PState) (ch : List Pick) (got : ℚ),
      pickWithFilterLists taken f ls (stMap ρ k st) ch got =
        (pickWithFilterLists taken f ls st ch got).map (liftSt ρ k) := by
  intro ls
  induction ls with
  | nil => intro st ch got; rfl
  | cons L rest ih =>
    intro st ch got
    simp only [pickWithFilterLists]
    rw [show (stMap ρ k st).secs = (listModify k (ruleMapSec ρ) st.secs) from rfl]
    rw [show poolIdx (listModify k (ruleMapSec ρ) st.secs) L = poolIdx st.secs L from
      poolIdx_stMap ρ k st L]
    cases hpi : poolIdx st.secs L with
    | none => exact ih st ch got
    | some pi =>
      dsimp only
      rw [pickFromSecList_stMap]
      cases hp : pickFromSecList taken f pi L st ch got with
      | some r => rfl
      | none => simpa using ih st ch got

theorem pickWithFilter_stMap (taken : List String) (f : Opt → Bool) (k si : ℕ)
    (secName : String) (allow : List String) (st : PState) (ch : List Pick)
    (got : ℚ) :
    pickWithFilter taken f si secName allow (stMap ρ k st) ch got =
      (pickWithFilter taken f si secName allow st ch got).map (liftSt ρ k) := by
  unfold pickWithFilter
  rw [pickFromSecList_stMap]
  cases hp : pickFromSecList taken f si secName st ch got with
  | some r => rfl
  | none => simpa using pickWithFilterLists_stMap ρ taken f k allow st ch got

theorem unitsDiscLoop_stMap (ctx : PCtx) (taken : List String) (k si : ℕ)
    (secName : String) (allow : List String) (minU : ℚ) (minD : ℕ) :
    ∀ (fuel : ℕ) (st : PState) (ch : List Pick) (got : ℚ) (dset : List String),
      unitsDiscLoop ctx taken si secName allow minU minD fuel (stMap ρ k st)
          ch got dset =
        liftSt ρ k (unitsDiscLoop ctx taken si secName allow minU minD fuel st
          ch got dset) := by
  intro fuel
  induction fuel with
  | zero => intro st ch got dset; rfl
  | succ fuel ih =>
    intro st ch got dset
    simp only [unitsDiscLoop]
    by_cases hc : dset.length < minD ∧ (got < minU ∨ dset.length < minD)
    · rw [if_pos hc, if_pos hc]
      rw [pickWithFilter_stMap]
      cases hp : pickWithFilter taken
          (fun pick => !(decide (disciplineOfCode ctx pick.code ∈ dset)))
          si secName allow st ch got with
      | none => rfl
      | some r =>
        obtain ⟨st', ch', got'⟩ := r
        dsimp only [Option.map, liftSt]
        by_cases hsz :
            (dedupKeepFirst (ch'.map (fun c => disciplineOfCode ctx c.code))).length
              = dset.length
        · rw [if_pos hsz, if_pos hsz]
        · rw [if_neg hsz, if_neg hsz]
          exact ih st' ch' got' _
    · rw [if_neg hc, if_neg hc]
      rfl

theorem unitsLocalPass_stMap (taken : List String) (k si : ℕ)
    (secName : String) (minU : ℚ) :
    ∀ (idx : List ℕ) (st : PState) (ch : List Pick) (got : ℚ),
      unitsLocalPass taken si secName minU idx (stMap ρ k st) ch got =
        liftSt ρ k (unitsLocalPass taken si secName minU idx st ch got) := by
  intro idx
  induction idx with
  | nil => intro st ch got; rfl
  | cons i rest ih =>
    intro st ch got
    simp only [unitsLocalPass, getItem_stMap, stMap_used]
    by_cases hm : minU ≤ got
    · rw [if_pos hm, if_pos hm]
      rfl
    · rw [if_neg hm, if_neg hm]
      cases hf : findMatchForItem (getItem st si i) taken st.used with
      | some pick =>
        dsimp only
        rw [markAndUse_stMap]
        exact ih _ _ _
      | none => exact ih st ch got

theorem unitsPerListLoop_stMap (taken : List String) (k : ℕ) (L : String)
    (need : ℚ) :
    ∀ (fuel : ℕ) (st : PState) (ch : List Pick) (got : ℚ),
      unitsPerListLoop taken L need fuel (stMap ρ k st) ch got =
        liftSt ρ k (unitsPerListLoop taken L need fuel st ch got) := by
  intro fuel
  induction fuel with
  | zero => intro st ch got; rfl
  | succ fuel ih =>
    intro st ch got
    simp only [unitsPerListLoop]
    by_cases hc : sumFromList ch L < need
    · rw [if_pos hc, if_pos hc]
      rw [show (stMap ρ k st).secs = (listModify k (ruleMapSec ρ) st.secs) from rfl]
      rw [show poolIdx (listModify k (ruleMapSec ρ) st.secs) L = poolIdx st.secs L from
        poolIdx_stMap ρ k st L]
      cases hpi : poolIdx st.secs L with
      | none => rfl
      | some pi =>
        dsimp only
        rw [pickFromSecList_stMap]
        cases hp : pickFromSecList taken (fun _ => true) pi L st ch got with
        | none => rfl
        | some r =>
          obtain ⟨st', ch', got'⟩ := r
          dsimp only [Option.map, liftSt]
          exact ih st' ch' got'
    · rw [if_neg hc, if_neg hc]
      rfl

theorem unitsPerListsPhase_stMap (taken : List String)
    (perListMin : List (String × ℚ)) (fuel k : ℕ) :
    ∀ (ls : List String) (st : PState) (ch : List Pick) (got : ℚ),
      unitsPerListsPhase taken perListMin fuel ls (stMap ρ k st) ch got =
        liftSt ρ k (unitsPerListsPhase taken perListMin fuel ls st ch got) := by
  intro ls
  induction ls with
  | nil => intro st ch got; rfl
  | cons L rest ih =>
    intro st ch got
    simp only [unitsPerListsPhase]
    rw [unitsPerListLoop_stMap]
    exact ih _ _ _

theorem unitsTopUpLoop_stMap (taken : List String) (k si : ℕ)
    (secName : String) (allow : List String) (minU : ℚ) :
    ∀ (fuel : ℕ) (st : PState) (ch : List Pick) (got : ℚ),
      unitsTopUpLoop taken si secName allow minU fuel (stMap ρ k st) ch got =
        liftSt ρ k (unitsTopUpLoop taken si secName allow minU fuel st ch got) := by
  intro fuel
  induction fuel with
  | zero => intro st ch got; rfl
  | succ fuel ih =>
    intro st ch got
    simp only [unitsTopUpLoop]
    by_cases hc : got < minU
    · rw [if_pos hc, if_pos hc]
      rw [pickWithFilter_stMap]
      cases hp : pickWithFilter taken (fun _ => true) si secName allow st ch got with
      | none => rfl
      | some r =>
        obtain ⟨st', ch', got'⟩ := r
        dsimp only [Option.map, liftSt]
        exact ih st' ch' got'
    · rw [if_neg hc, if_neg hc]
      rfl

theorem satisfyUnitsSection_stMap (ctx : PCtx) (taken : List String)
    {k si : ℕ} (st : PState) (h : si ≠ k) :
    satisfyUnitsSection ctx taken si (stMap ρ k st) =
      liftSt ρ k (satisfyUnitsSection ctx taken si st) := by
  unfold satisfyUnitsSection
  rw [getSec_stMap_of_ne ρ st h, totalItems_stMap]
  dsimp only
  by_cases hd : 0 < (getSec st si).rule.min_disciplines.getD 0
  · rw [if_pos hd, if_pos hd, unitsDiscLoop_stMap]
    rw [show ∀ (p : PState × List Pick × ℚ), (liftSt ρ k p).1 = stMap ρ k p.1
      from fun p => rfl]
    rw [show ∀ (p : PState × List Pick × ℚ), (liftSt ρ k p).2 = p.2
      from fun p => rfl]
    rw [unitsPerListsPhase_stMap]
    rw [show ∀ (p : PState × List Pick × ℚ), (liftSt ρ k p).1 = stMap ρ k p.1
      from fun p => rfl]
    rw [show ∀ (p : PState × List Pick × ℚ), (liftSt ρ k p).2 = p.2
      from fun p => rfl]
    rw [unitsTopUpLoop_stMap]
    rfl
  · rw [if_neg hd, if_neg hd, unitsLocalPass_stMap]
    rw [show ∀ (p : PState × List Pick × ℚ), (liftSt ρ k p).1 = stMap ρ k p.1
      from fun p => rfl]
    rw [show ∀ (p : PState × List Pick × ℚ), (liftSt ρ k p).2 = p.2
      from fun p => rfl]
    rw [unitsPerListsPhase_stMap]
    rw [show ∀ (p : PState × List Pick × ℚ), (liftSt ρ k p).1 = stMap ρ k p.1
      from fun p => rfl]
    rw [show ∀ (p : PState × List Pick × ℚ), (liftSt ρ k p).2 = p.2
      from fun p => rfl]
    rw [unitsTopUpLoop_stMap]
    rfl

theorem unitsPhaseStep_stMap (ctx : PCtx) (taken : List String) {k si : ℕ}
    (st : PState) (h : si ≠ k) :
    unitsPhaseStep ctx taken si (stMap ρ k st) =
      (stMap ρ k (unitsPhaseStep ctx taken si st).1,
        (unitsPhaseStep ctx taken si st).2) := by
  unfold unitsPhaseStep
  rw [getSec_stMap_of_ne ρ st h, satisfyUnitsSection_stMap ρ ctx taken st h]
  rfl

theorem unitsPhase_stMap (ctx : PCtx) (taken : List String) (k : ℕ) :
    ∀ (idx : List ℕ), (∀ si ∈ idx, si ≠ k) →
      ∀ (st : PState) (req met : ℤ) (rows : List (ℕ × List Pick × ℚ)),
        unitsPhase ctx taken idx (stMap ρ k st) req met rows =
          liftSt ρ k (unitsPhase ctx taken idx st req met rows) := by
  intro idx
  induction idx with
  | nil => intro _ st req met rows; rfl
  | cons si rest ih =>
    intro hne st req met rows
    simp only [unitsPhase]
    rw [unitsPhaseStep_stMap ρ ctx taken st (hne si (List.mem_cons_self si rest))]
    exact ih (fun x hx => hne x (List.mem_cons_of_mem si hx)) _ _ _ _

theorem countLocalPass_stMap (taken : List String) (k si maxN : ℕ)
    (secName : String) :
    ∀ (idx : List ℕ) (st : PState) (ch : List Pick),
      countLocalPass taken si maxN secName idx (stMap ρ k st) ch =
        liftSt ρ k (countLocalPass taken si maxN secName idx st ch) := by
  intro idx
  induction idx with
  | nil => intro st ch; rfl
  | cons i rest ih =>
    intro st ch
    simp only [countLocalPass, getItem_stMap, stMap_used]
    by_cases hstop : maxN ≤ ch.length
    · rw [if_pos hstop, if_pos hstop]
      rfl
    · rw [if_neg hstop, if_neg hstop]
      cases hf : findMatchForItem (getItem st si i) taken st.used with
      | some pick =>
        dsimp only
        rw [markAndUse_stMap]
        exact ih _ _
      | none => exact ih st ch

theorem countBorrowPool_stMap (taken : List String) (k needN pi : ℕ)
    (listName : String) :
    ∀ (idx : List ℕ) (st : PState) (ch : List Pick),
      countBorrowPool taken needN pi listName idx (stMap ρ k st) ch =
        liftSt ρ k (countBorrowPool taken needN pi listName idx st ch) := by
  intro idx
  induction idx with
  | nil => intro st ch; rfl
  | cons i rest ih =>
    intro st ch
    simp only [countBorrowPool, getItem_stMap, stMap_used]
    by_cases hstop : needN ≤ ch.length
    · rw [if_pos hstop, if_pos hstop]
      rfl
    · rw [if_neg hstop, if_neg hstop]
      by_cases hmt : (getItem st pi i).matched
      · rw [if_pos hmt, if_pos hmt]
        exact ih st ch
      · rw [if_neg hmt, if_neg hmt]
        cases hf : findMatchForItem (getItem st pi i) taken st.used with
        | some pick =>
          dsimp only
          rw [markAndUse_stMap]
          exact ih _ _
        | none => exact ih st ch

theorem countBorrowLists_stMap (taken : List String) (k needN : ℕ) :
    ∀ (ls : List String) (st : PState) (ch : List Pick),
      countBorrowLists taken needN ls (stMap ρ k st) ch =
        liftSt ρ k (countBorrowLists taken needN ls st ch) := by
  intro ls
  induction ls with
  | nil => intro st ch; rfl
  | cons L rest ih =>
    intro st ch
    simp only [countBorrowLists]
    by_cases hstop : needN ≤ ch.length
    · rw [if_pos hstop, if_pos hstop]
      rfl
    · rw [if_neg hstop, if_neg hstop]
      rw [show (stMap ρ k st).secs = (listModify k (ruleMapSec ρ) st.secs) from rfl]
      rw [show poolIdx (listModify k (ruleMapSec ρ) st.secs) L = poolIdx st.secs L from
        poolIdx_stMap ρ k st L]
      cases hpi : poolIdx st.secs L with
      | none => exact ih st ch
      | some pi =>
        dsimp only
        rw [getSec_stMap_items, countBorrowPool_stMap]
        rw [show ∀ (p : PState × List Pick), (liftSt ρ k p).1 = stMap ρ k p.1
          from fun p => rfl]
        rw [show ∀ (p : PState × List Pick), (liftSt ρ k p).2 = p.2
          from fun p => rfl]
        exact ih _ _

theorem satisfyCountSection_stMap (taken : List String) {k si : ℕ}
    (st : PState) (h : si ≠ k) :
    satisfyCountSection taken si (stMap ρ k st) =
      liftSt ρ k (satisfyCountSection taken si st) := by
  unfold satisfyCountSection
  rw [getSec_stMap_of_ne ρ st h]
  dsimp only
  rw [countLocalPass_stMap]
  rw [show ∀ (p : PState × List Pick), (liftSt ρ k p).1 = stMap ρ k p.1
    from fun p => rfl]
  rw [show ∀ (p : PState × List Pick), (liftSt ρ k p).2 = p.2
    from fun p => rfl]
  rw [countBorrowLists_stMap]
  rfl

theorem countPhaseStep_stMap (taken : List String) {k si : ℕ}
    (st : PState) (h : si ≠ k) :
    countPhaseStep taken si (stMap ρ k st) =
      (stMap ρ k (countPhaseStep taken si st).1,
        (countPhaseStep taken si st).2) := by
  unfold countPhaseStep
  rw [getSec_stMap_of_ne ρ st h, satisfyCountSection_stMap ρ taken st h]
  rfl

theorem countPhase_stMap (taken : List String) (k : ℕ) :
    ∀ (idx : List ℕ), (∀ si ∈ idx, si ≠ k) →
      ∀ (st : PState) (req met : ℤ) (rows : List (ℕ × List Pick)),
        countPhase taken idx (stMap ρ k st) req met rows =
          liftSt ρ k (countPhase taken idx st req met rows) := by
  intro idx
  induction idx with
  | nil => intro _ st req met rows; rfl
  | cons si rest ih =>
    intro hne st req met rows
    simp only [countPhase]
    rw [countPhaseStep_stMap ρ taken st (hne si (List.mem_cons_self si rest))]
    exact ih (fun x hx => hne x (List.mem_cons_of_mem si hx)) _ _ _ _

theorem allishItemsStep_stMap (taken : List String) (k si : ℕ) :
    ∀ (idx : List ℕ) (st : PState) (req met : ℤ),
      allishItemsStep taken si idx (stMap ρ k st) req met =
        liftSt ρ k (allishItemsStep taken si idx st req met) := by
  intro idx
  induction idx with
  | nil => intro st req met; rfl
  | cons i rest ih =>
    intro st req met
    simp only [allishItemsStep, getItem_stMap, stMap_used]
    cases hf : findMatchForItem (getItem st si i) taken st.used with
    | some pick =>
      dsimp only
      rw [markAndUse_stMap]
      exact ih _ _ _
    | none => exact ih st (req + 1) met

theorem allishPhase_stMap (taken : List String) (k : ℕ) :
    ∀ (idx : List ℕ) (st : PState) (req met : ℤ),
      allishPhase taken idx (stMap ρ k st) req met =
        liftSt ρ k (allishPhase taken idx st req met) := by
  intro idx
  induction idx with
  | nil => intro st req met; rfl
  | cons si rest ih =>
    intro st req met
    simp only [allishPhase]
    rw [getSec_stMap_items, allishItemsStep_stMap]
    rw [show ∀ (p : PState × ℤ × ℤ), (liftSt ρ k p).1 = stMap ρ k p.1
      from fun p => rfl]
    rw [show ∀ (p : PState × ℤ × ℤ), (liftSt ρ k p).2 = p.2
      from fun p => rfl]
    exact ih _ _ _

end RuleMapSuite

/-- The retype instance of the suite: force the rule type to ALL. -/
def typeAllR (r : RuleIn) : RuleIn := { r with type := some "ALL" }

theorem listModify_eq_self {α : Type _} (f : α → α) :
    ∀ (l : List α) (k : ℕ), (∀ x, l.get? k = some x → f x = x) →
      listModify k f l = l := by
  intro l
  induction l with
  | nil => intro k _; simp [listModify]
  | cons a as ih =>
    intro k hk
    cases k with
    | zero =>
      simp only [listModify]
      rw [hk a rfl]
    | succ k' =>
      simp only [listModify]
      rw [ih k' (fun x hx => hk x hx)]

theorem get?_of_listModify_fixed {α : Type _} {l : List α} {k : ℕ} {f : α → α}
    (hfixl : listModify k f l = l) {y : α} (hy : l.get? k = some y) :
    y = f y := by
  have h := listModify_get? f l k k
  rw [hfixl, hy] at h
  simp only [if_pos rfl, Option.map_some] at h
  exact Option.some.inj h

theorem map_listModify {α β : Type _} (f : α → α) (g : α → β) (h : β → β) :
    ∀ (l : List α) (k : ℕ), (∀ x, l.get? k = some x → g (f x) = h (g x)) →
      (listModify k f l).map g = listModify k h (l.map g) := by
  intro l
  induction l with
  | nil => intro k _; simp [listModify]
  | cons a as ih =>
    intro k hk
    cases k with
    | zero =>
      simp only [listModify, List.map]
      rw [hk a rfl]
    | succ k' =>
      simp only [listModify, List.map]
      rw [ih k' (fun x hx => hk x hx)]

theorem any_listModify {α : Type _} (f : α → α) (p : α → Bool)
    (hp : ∀ x, p (f x) = p x) :
    ∀ (l : List α) (k : ℕ), (listModify k f l).any p = l.any p := by
  intro l
  induction l with
  | nil => intro k; simp [listModify]
  | cons a as ih =>
    intro k
    cases k with
    | zero => simp [listModify, hp a]
    | succ k' => simp [listModify, ih k']

theorem filter_ext_mem {α : Type _} (p q : α → Bool) :
    ∀ (l : List α), (∀ x ∈ l, p x = q x) → l.filter p = l.filter q := by
  intro l
  induction l with
  | nil => intro _; rfl
  | cons a as ih =>
    intro h
    simp only [List.filter]
    rw [h a (List.mem_cons_self a as),
      ih (fun x hx => h x (List.mem_cons_of_mem a hx))]

theorem filter_foldl_listModify {α β : Type _} (f : α → α) (p : α → Bool)
    (step : β → α → β) (hp : ∀ x, p (f x) = p x)
    (hs : ∀ acc x, step acc (f x) = step acc x) :
    ∀ (S : List α) (k : ℕ) (acc : β),
      ((listModify k f S).filter p).foldl step acc =
        (S.filter p).foldl step acc := by
  intro S
  induction S with
  | nil => intro k acc; simp [listModify]
  | cons a as ih =>
    intro k acc
    cases k with
    | zero =>
      simp only [listModify, List.filter]
      rw [hp a]
      cases hpa : p a with
      | true =>
        simp only [List.foldl_cons]
        rw [hs acc a]
      | false => rfl
    | succ k' =>
      simp only [listModify, List.filter]
      cases hpa : p a with
      | true =>
        simp only [List.foldl_cons]
        exact ih k' (step acc a)
      | false => exact ih k' acc

/-- The `Select <n>` coercion never fires on a section already typed ALL. -/
theorem coerce_setTypeAllRaw (sec : SectionIn) :
    coerceSelectCountRule (setTypeAllRaw sec) = setTypeAllRaw sec := by
  obtain ⟨n, ro, its⟩ := sec
  cases ro with
  | none =>
    show coerceSelectCountRule ⟨n, none, its⟩ = (⟨n, none, its⟩ : SectionIn)
    unfold coerceSelectCountRule
    by_cases h1 : (⟨n, none, its⟩ : SectionIn).name = ""
    · rw [if_pos h1]
    · rw [if_neg h1]
      cases hsel : selectCapture (SectionIn.name ⟨n, none, its⟩) with
      | none => rfl
      | some w =>
        dsimp only
        rw [if_neg (by decide :
          ¬ ruleTypeOf ((none : Option RuleIn).bind (fun r => r.type)) = "LIST")]
  | some r =>
    show coerceSelectCountRule ⟨n, some { r with type := some "ALL" }, its⟩ =
      (⟨n, some { r with type := some "ALL" }, its⟩ : SectionIn)
    unfold coerceSelectCountRule
    by_cases h1 :
        (⟨n, some { r with type := some "ALL" }, its⟩ : SectionIn).name = ""
    · rw [if_pos h1]
    · rw [if_neg h1]
      cases hsel : selectCapture
          (SectionIn.name ⟨n, some { r with type := some "ALL" }, its⟩) with
      | none => rfl
      | some w =>
        dsimp only [Option.bind]
        rw [if_neg (by decide :
          ¬ ruleTypeOf ((some "ALL" : Option String)) = "LIST")]

/-- Retyping a raw section to ALL commutes with section processing. -/
theorem processSections_setTypeAll (ctx : PCtx) (d : Detail) (k : ℕ)
    {sec : SectionIn} (hsec : d.sections.get? k = some sec)
    (hco : coerceSelectCountRule sec = sec) :
    processSections ctx (detailSetTypeAll d k) =
      listModify k (ruleMapSec typeAllR) (processSections ctx d) := by
  unfold processSections detailSetTypeAll
  apply map_listModify
  intro x hx
  rw [hsec] at hx
  injection hx with hx
  subst hx
  dsimp only
  rw [coerce_setTypeAllRaw, hco]
  show (⟨(setTypeAllRaw sec).name, (setTypeAllRaw sec).rule.getD ruleAll,
    indexSectionItems ctx (setTypeAllRaw sec)⟩ : ESec) = _
  obtain ⟨n, ro, its⟩ := sec
  cases ro with
  | none => rfl
  | some r => rfl

theorem crossPools_setTypeAll (S : List SectionIn) (k : ℕ) (a : List String) :
    crossPools (listModify k setTypeAllRaw S) a = crossPools S a := by
  unfold crossPools
  apply filter_foldl_listModify
  · intro x
    rfl
  · intro acc x
    rfl

theorem evalCrossListUnits_setTypeAll (d : Detail) (k : ℕ)
    (taken used : List String) :
    evalCrossListUnits (detailSetTypeAll d k) taken used =
      evalCrossListUnits d taken used := by
  unfold evalCrossListUnits
  rw [show (detailSetTypeAll d k).cross_list_rules = d.cross_list_rules
    from rfl]
  cases hf : d.cross_list_rules.find? (fun r => r.type = "CROSS_LIST_UNITS") with
  | none => rfl
  | some rule =>
    dsimp only
    unfold evalCrossRule
    rw [show (detailSetTypeAll d k).sections =
      listModify k setTypeAllRaw d.sections from rfl]
    rw [crossPools_setTypeAll]

theorem crossAccOf_ruleMap (ρ : RuleIn → RuleIn) (secs : List ESec)
    (k : ℕ) (r : CrossRule) :
    crossAccOf (listModify k (ruleMapSec ρ) secs) r = crossAccOf secs r := by
  unfold crossAccOf
  apply filter_foldl_listModify
  · intro x
    rfl
  · intro acc x
    rfl

theorem mkCrossFinding_ruleMap (ρ : RuleIn → RuleIn) (secs : List ESec)
    (k : ℕ) (r : CrossRule) :
    mkCrossFinding (listModify k (ruleMapSec ρ) secs) r =
      mkCrossFinding secs r := by
  unfold mkCrossFinding
  rw [crossAccOf_ruleMap]

theorem crossFindingsOf_setTypeAll (d : Detail) (k j : ℕ)
    (ρ : RuleIn → RuleIn) (secs : List ESec) :
    crossFindingsOf (detailSetTypeAll d k) (listModify j (ruleMapSec ρ) secs) =
      crossFindingsOf d secs := by
  unfold crossFindingsOf
  rw [show (detailSetTypeAll d k).cross_list_rules = d.cross_list_rules
    from rfl]
  rw [show mkCrossFinding (listModify j (ruleMapSec ρ) secs) =
    mkCrossFinding secs from funext (mkCrossFinding_ruleMap ρ secs j)]

theorem secAt_listModify_self {S : List ESec} {k : ℕ} {f : ESec → ESec}
    {y : ESec} (hx : S.get? k = some y) :
    secAt (listModify k f S) k = f y := by
  unfold secAt
  rw [listModify_get?, if_pos rfl, hx]
  rfl

theorem secAt_listModify_none {S : List ESec} {k : ℕ} {f : ESec → ESec}
    (hx : S.get? k = none) :
    secAt (listModify k f S) k = secAt S k := by
  unfold secAt
  rw [listModify_get?, if_pos rfl, hx]
  rfl

theorem secAt_of_get? {S : List ESec} {k : ℕ} {y : ESec}
    (hx : S.get? k = some y) : secAt S k = y := by
  unfold secAt
  rw [hx]

/-- The ALL-typed index filter agrees on the retyped and original states. -/
theorem allIdx_typeAll (d : Detail) (k : ℕ) (skipGE : Bool)
    (S : List ESec)
    (hty : ∀ y, S.get? k = some y → ruleTypeOf y.rule.type = "LIST")
    (hpool : ∀ y, S.get? k = some y →
      sectionIsInCrossList d y.name = false) :
    (List.range S.length).filter (fun si =>
      isAllishSec (detailSetTypeAll d k)
          (secAt (listModify k (ruleMapSec typeAllR) S) si) &&
      !(skipGE && isGESection
          (secAt (listModify k (ruleMapSec typeAllR) S) si).name)) =
    (List.range S.length).filter (fun si =>
      isAllishSec d (secAt S si) &&
      !(skipGE && isGESection (secAt S si).name)) := by
  apply filter_ext_mem
  intro si _
  by_cases hk : si = k
  · subst hk
    cases hx : S.get? si with
    | none =>
      rw [secAt_listModify_none hx,
        show isAllishSec (detailSetTypeAll d si) = isAllishSec d from rfl]
    | some y =>
      rw [secAt_listModify_self hx, secAt_of_get? hx,
        show isAllishSec (detailSetTypeAll d si) = isAllishSec d from rfl]
      rw [show (ruleMapSec typeAllR y).name = y.name from rfl]
      congr 1
      unfold isAllishSec
      dsimp only [ruleMapSec, typeAllR]
      rw [hty y hx, show ruleTypeOf (some "ALL") = "ALL" from rfl]
      rw [hpool y hx]
      decide
  · rw [secAt_retype_eq_of_ne typeAllR hk,
      show isAllishSec (detailSetTypeAll d k) = isAllishSec d from rfl]

/-- The COUNT index filter agrees on the retyped and original states. -/
theorem cntIdx_typeAll (d : Detail) (k : ℕ) (skipGE : Bool) (S : List ESec)
    (hty : ∀ y, S.get? k = some y → ruleTypeOf y.rule.type = "LIST") :
    (List.range S.length).filter (fun si =>
      ruleTypeOf (secAt (listModify k (ruleMapSec typeAllR) S) si).rule.type
          = "COUNT" &&
      !(sectionIsInCrossList (detailSetTypeAll d k)
          (secAt (listModify k (ruleMapSec typeAllR) S) si).name) &&
      !(skipGE && isGESection
          (secAt (listModify k (ruleMapSec typeAllR) S) si).name)) =
    (List.range S.length).filter (fun si =>
      ruleTypeOf (secAt S si).rule.type = "COUNT" &&
      !(sectionIsInCrossList d (secAt S si).name) &&
      !(skipGE && isGESection (secAt S si).name)) := by
  apply filter_ext_mem
  intro si _
  by_cases hk : si = k
  · subst hk
    cases hx : S.get? si with
    | none =>
      rw [secAt_listModify_none hx,
        show sectionIsInCrossList (detailSetTypeAll d si) =
          sectionIsInCrossList d from rfl]
    | some y =>
      rw [secAt_listModify_self hx, secAt_of_get? hx,
        show sectionIsInCrossList (detailSetTypeAll d si) =
          sectionIsInCrossList d from rfl]
      dsimp only [ruleMapSec, typeAllR]
      rw [hty y hx, show ruleTypeOf (some "ALL") = "ALL" from rfl]
      rw [show (decide (("ALL" : String) = "COUNT")) = false from rfl,
        show (decide (("LIST" : String) = "COUNT")) = false from rfl]
  · rw [secAt_retype_eq_of_ne typeAllR hk,
      show sectionIsInCrossList (detailSetTypeAll d k) =
        sectionIsInCrossList d from rfl]

/-- The UNITS index filter agrees on the retyped and original states. -/
theorem uIdx_typeAll (k : ℕ) (skipGE : Bool) (S : List ESec)
    (hty : ∀ y, S.get? k = some y → ruleTypeOf y.rule.type = "LIST") :
    (List.range S.length).filter (fun si =>
      ruleTypeOf (secAt (listModify k (ruleMapSec typeAllR) S) si).rule.type
          = "UNITS" &&
      !(skipGE && isGESection
          (secAt (listModify k (ruleMapSec typeAllR) S) si).name)) =
    (List.range S.length).filter (fun si =>
      ruleTypeOf (secAt S si).rule.type = "UNITS" &&
      !(skipGE && isGESection (secAt S si).name)) := by
  apply filter_ext_mem
  intro si _
  by_cases hk : si = k
  · subst hk
    cases hx : S.get? si with
    | none => rw [secAt_listModify_none hx]
    | some y =>
      rw [secAt_listModify_self hx, secAt_of_get? hx]
      dsimp only [ruleMapSec, typeAllR]
      rw [hty y hx, show ruleTypeOf (some "ALL") = "ALL" from rfl]
      rw [show (decide (("ALL" : String) = "UNITS")) = false from rfl,
        show (decide (("LIST" : String) = "UNITS")) = false from rfl]
  · rw [secAt_retype_eq_of_ne typeAllR hk]

/-- An index passing a filter whose predicate is false at `k` is not `k`. -/
theorem mem_filter_ne {p : ℕ → Bool} {l : List ℕ} {k : ℕ} (hk : p k = false) :
    ∀ si ∈ l.filter p, si ≠ k := by
  intro si hsi hek
  subst hek
  have hp := List.of_mem_filter hsi
  rw [hk] at hp
  exact Bool.noConfusion hp

/-- Detail rows ignore a LIST→ALL retype of section `k`. -/
theorem detailRowsGo_typeAll (ctx : PCtx) (skipGE : Bool)
    (cross : Option CrossRes) (secs : List ESec)
    (countRows : List (ℕ × List Pick)) (unitsRows : List (ℕ × List Pick × ℚ))
    (k : ℕ)
    (hty : ∀ y, secs.get? k = some y → ruleTypeOf y.rule.type = "LIST") :
    ∀ idx, detailRowsGo ctx skipGE cross
        (listModify k (ruleMapSec typeAllR) secs) countRows unitsRows idx =
      detailRowsGo ctx skipGE cross secs countRows unitsRows idx := by
  intro idx
  induction idx with
  | nil => rfl
  | cons si rest ih =>
    simp only [detailRowsGo]
    by_cases hk : si = k
    · subst hk
      cases hx : secs.get? si with
      | none => rw [secAt_listModify_none hx, ih]
      | some y =>
        rw [secAt_listModify_self hx, secAt_of_get? hx, ih]
        rw [show (ruleMapSec typeAllR y).name = y.name from rfl]
        by_cases hge : (skipGE && isGESection y.name) = true
        · rw [if_pos hge, if_pos hge]
        · rw [if_neg hge, if_neg hge]
          have hrow : (if ruleTypeOf (ruleMapSec typeAllR y).rule.type = "ALL" ∨
               ruleTypeOf (ruleMapSec typeAllR y).rule.type = "LIST" then
                detailAllish (ruleMapSec typeAllR y)
              else if ruleTypeOf (ruleMapSec typeAllR y).rule.type = "COUNT" then
                detailCount ctx (ruleMapSec typeAllR y) (lookupD countRows si [])
              else if ruleTypeOf (ruleMapSec typeAllR y).rule.type = "UNITS" then
                detailUnits ctx (ruleMapSec typeAllR y)
                  (lookupD unitsRows si ([], 0)).1 (lookupD unitsRows si ([], 0)).2
              else (⟨(ruleMapSec typeAllR y).name, []⟩ : DetailRow)) =
              (if ruleTypeOf y.rule.type = "ALL" ∨
               ruleTypeOf y.rule.type = "LIST" then detailAllish y
              else if ruleTypeOf y.rule.type = "COUNT" then
                detailCount ctx y (lookupD countRows si [])
              else if ruleTypeOf y.rule.type = "UNITS" then
                detailUnits ctx y
                  (lookupD unitsRows si ([], 0)).1 (lookupD unitsRows si ([], 0)).2
              else (⟨y.name, []⟩ : DetailRow)) := by
            rw [if_pos (Or.inr (hty y hx))]
            rw [if_pos (show ruleTypeOf (ruleMapSec typeAllR y).rule.type = "ALL"
              ∨ ruleTypeOf (ruleMapSec typeAllR y).rule.type = "LIST" from
              Or.inl rfl)]
            rfl
          cases cross with
          | none => exact congrArg (fun r => r :: _) hrow
          | some c =>
            dsimp only
            by_cases hlq : (c.earnedBySection.lookup y.name).isSome = true
            · rw [if_pos hlq, if_pos hlq]
              rfl
            · rw [if_neg hlq, if_neg hlq]
              exact congrArg (fun r => r :: _) hrow
    · rw [secAt_retype_eq_of_ne typeAllR hk, ih]

/-- The three marking phases never change the rule stored at a section: if the
initial state is a fixed point of overwriting section `k`'s rule with `r0`,
the section still carries rule `r0` in the final state. -/
theorem phaseChain_rule_preserved {ctx : PCtx} {taken : List String}
    {aIdx cIdx uIdx : List ℕ} {k : ℕ} {st0 : PState} {r0 : RuleIn}
    (hfix : stMap (fun _ => r0) k st0 = st0)
    (hcne : ∀ si ∈ cIdx, si ≠ k) (hune : ∀ si ∈ uIdx, si ≠ k)
    {r1 m1 r2 m2 : ℤ} {y : ESec}
    (hy : (unitsPhase ctx taken uIdx
        (countPhase taken cIdx (allishPhase taken aIdx st0 0 0).1 r1 m1 []).1
        r2 m2 []).1.secs.get? k = some y) :
    y.rule = r0 := by
  have hA : stMap (fun _ => r0) k (allishPhase taken aIdx st0 0 0).1 =
      (allishPhase taken aIdx st0 0 0).1 := by
    conv_rhs => rw [← hfix]
    rw [allishPhase_stMap]
    rfl
  have hC : stMap (fun _ => r0) k
      (countPhase taken cIdx (allishPhase taken aIdx st0 0 0).1 r1 m1 []).1 =
      (countPhase taken cIdx (allishPhase taken aIdx st0 0 0).1 r1 m1 []).1 := by
    conv_rhs => rw [← hA]
    rw [countPhase_stMap _ taken k cIdx hcne]
    rfl
  have hU : stMap (fun _ => r0) k
      (unitsPhase ctx taken uIdx
        (countPhase taken cIdx (allishPhase taken aIdx st0 0 0).1 r1 m1 []).1
        r2 m2 []).1 =
      (unitsPhase ctx taken uIdx
        (countPhase taken cIdx (allishPhase taken aIdx st0 0 0).1 r1 m1 []).1
        r2 m2 []).1 := by
    conv_rhs => rw [← hC]
    rw [unitsPhase_stMap _ ctx taken k uIdx hune]
    rfl
  have hsecs := congrArg PState.secs hU
  have hyfix := get?_of_listModify_fixed hsecs hy
  exact congrArg ESec.rule hyfix

/-- C8 (amended): for every section whose rule type is LIST, whose name does
not trigger the `Select (n)` COUNT coercion (`coerceSelectCountRule` leaves it
unchanged), and whose name is not pooled under a cross-list rule, evaluation
is identical to an ALL section: `evaluateProgram` returns exactly the same
result when that section's rule type is replaced by ALL.  The name proviso is
necessary: see the counterexample. -/
theorem c8_list_equals_all (ctx : PCtx) (d : Detail) (k : ℕ)
    (sec : SectionIn) (taken : List String) (skipGE : Bool)
    (hsec : d.sections.get? k = some sec)
    (hco : coerceSelectCountRule sec = sec)
    (hty : ruleTypeOf (sec.rule.bind (fun r => r.type)) = "LIST")
    (hpool : sectionIsInCrossList d sec.name = false) :
    evaluateProgram ctx (detailSetTypeAll d k) taken skipGE =
      evaluateProgram ctx d taken skipGE := by
  have hGsec : (processSections ctx d).get? k =
      some ⟨sec.name, sec.rule.getD ruleAll, indexSectionItems ctx sec⟩ := by
    unfold processSections
    rw [List.get?_map, hsec]
    dsimp only [Option.map]
    rw [hco]
  have htyS : ∀ y, (processSections ctx d).get? k = some y →
      ruleTypeOf y.rule.type = "LIST" := by
    intro y hy
    rw [hGsec] at hy
    injection hy with hy
    subst hy
    cases hr : sec.rule with
    | none =>
      rw [hr] at hty
      exact absurd hty (by decide)
    | some r =>
      rw [hr] at hty
      exact hty
  have hpoolS : ∀ y, (processSections ctx d).get? k = some y →
      sectionIsInCrossList d y.name = false := by
    intro y hy
    rw [hGsec] at hy
    injection hy with hy
    subst hy
    exact hpool
  unfold evaluateProgram evaluateProgramS
  dsimp only
  rw [processSections_setTypeAll ctx d k hsec hco]
  rw [evalCrossListUnits_setTypeAll]
  rw [listModify_length]
  rw [allIdx_typeAll d k skipGE (processSections ctx d) htyS hpoolS]
  rw [cntIdx_typeAll d k skipGE (processSections ctx d) htyS]
  rw [uIdx_typeAll k skipGE (processSections ctx d) htyS]
  rw [show (⟨listModify k (ruleMapSec typeAllR) (processSections ctx d),
      (evalCrossListUnits d taken []).2⟩ : PState) =
    stMap typeAllR k ⟨processSections ctx d, (evalCrossListUnits d taken []).2⟩
    from rfl]
  rw [allishPhase_stMap]
  rw [show ∀ (p : PState × ℤ × ℤ),
    (liftSt typeAllR k p).1 = stMap typeAllR k p.1 from fun p => rfl]
  rw [show ∀ (p : PState × ℤ × ℤ),
    (liftSt typeAllR k p).2 = p.2 from fun p => rfl]
  have hcntne : ∀ si ∈ (List.range (processSections ctx d).length).filter
      (fun si =>
        ruleTypeOf (secAt (processSections ctx d) si).rule.type = "COUNT" &&
        !(sectionIsInCrossList d (secAt (processSections ctx d) si).name) &&
        !(skipGE && isGESection (secAt (processSections ctx d) si).name)),
      si ≠ k := by
    intro si hsi hek
    subst hek
    have hp := List.of_mem_filter hsi
    rw [secAt_of_get? hGsec, htyS _ hGsec] at hp
    rw [show (decide (("LIST" : String) = "COUNT")) = false from rfl] at hp
    rw [Bool.false_and, Bool.false_and] at hp
    exact Bool.noConfusion hp
  rw [countPhase_stMap typeAllR taken k _ hcntne]
  rw [show ∀ (p : PState × ℤ × ℤ × List (ℕ × List Pick)),
    (liftSt typeAllR k p).1 = stMap typeAllR k p.1 from fun p => rfl]
  rw [show ∀ (p : PState × ℤ × ℤ × List (ℕ × List Pick)),
    (liftSt typeAllR k p).2 = p.2 from fun p => rfl]
  have hune : ∀ si ∈ (List.range (processSections ctx d).length).filter
      (fun si =>
        ruleTypeOf (secAt (processSections ctx d) si).rule.type = "UNITS" &&
        !(skipGE && isGESection (secAt (processSections ctx d) si).name)),
      si ≠ k := by
    intro si hsi hek
    subst hek
    have hp := List.of_mem_filter hsi
    rw [secAt_of_get? hGsec, htyS _ hGsec] at hp
    rw [show (decide (("LIST" : String) = "UNITS")) = false from rfl] at hp
    rw [Bool.false_and] at hp
    exact Bool.noConfusion hp
  rw [unitsPhase_stMap typeAllR ctx taken k _ hune]
  rw [show ∀ (p : PState × ℤ × ℤ × List (ℕ × List Pick × ℚ)),
    (liftSt typeAllR k p).1 = stMap typeAllR k p.1 from fun p => rfl]
  rw [show ∀ (p : PState × ℤ × ℤ × List (ℕ × List Pick × ℚ)),
    (liftSt typeAllR k p).2 = p.2 from fun p => rfl]
  rw [show ∀ (st : PState), (stMap typeAllR k st).secs =
    listModify k (ruleMapSec typeAllR) st.secs from fun st => rfl]
  rw [crossFindingsOf_setTypeAll]
  rw [listModify_length]
  rw [any_listModify (ruleMapSec typeAllR) (fun s => !s.items.isEmpty)
    (fun x => rfl)]
  have hfix : stMap (fun _ => sec.rule.getD ruleAll) k
      (⟨processSections ctx d, (evalCrossListUnits d taken []).2⟩ : PState) =
      ⟨processSections ctx d, (evalCrossListUnits d taken []).2⟩ := by
    unfold stMap
    rw [listModify_eq_self]
    intro x hx
    rw [hGsec] at hx
    injection hx with hx
    subst hx
    rfl
  set AIDX := (List.range (processSections ctx d).length).filter
    (fun si =>
      isAllishSec d (secAt (processSections ctx d) si) &&
      !(skipGE && isGESection (secAt (processSections ctx d) si).name))
    with hAIDX
  set CIDX := (List.range (processSections ctx d).length).filter
    (fun si =>
      ruleTypeOf (secAt (processSections ctx d) si).rule.type = "COUNT" &&
      !(sectionIsInCrossList d (secAt (processSections ctx d) si).name) &&
      !(skipGE && isGESection (secAt (processSections ctx d) si).name))
    with hCIDX
  set UIDX := (List.range (processSections ctx d).length).filter
    (fun si =>
      ruleTypeOf (secAt (processSections ctx d) si).rule.type = "UNITS" &&
      !(skipGE && isGESection (secAt (processSections ctx d) si).name))
    with hUIDX
  set ST0 := (⟨processSections ctx d,
    (evalCrossListUnits d taken []).2⟩ : PState) with hST0
  set A := allishPhase taken AIDX ST0 0 0 with hA0
  set C := countPhase taken CIDX A.1 A.2.1 A.2.2 [] with hC0
  set U := unitsPhase ctx taken UIDX C.1 C.2.1 C.2.2.1 [] with hU0
  have htyF : ∀ y, U.1.secs.get? k = some y →
      ruleTypeOf y.rule.type = "LIST" := by
    intro y hy
    rw [hU0, hC0, hA0, hST0, hAIDX, hCIDX, hUIDX] at hy
    rw [phaseChain_rule_preserved hfix hcntne hune hy]
    exact htyS _ hGsec
  rw [detailRowsGo_typeAll ctx skipGE ((evalCrossListUnits d taken []).1)
    U.1.secs C.2.2.2 U.2.2.2 k htyF]

/-! ### C8 witness and counterexample data. -/

def c8wsec : SectionIn :=
  ⟨"Core", some ⟨some "LIST", none, none, none, none, none, none⟩,
    [⟨[⟨"A 1", some 3⟩]⟩, ⟨[⟨"B 1", some 3⟩]⟩]⟩

def c8w : Detail := ⟨[c8wsec], []⟩

theorem c8_list_equals_all_witness :
    coerceSelectCountRule c8wsec = c8wsec ∧
    evaluateProgram pctxTrivial (detailSetTypeAll c8w 0) ["A 1"] false =
      evaluateProgram pctxTrivial c8w ["A 1"] false :=
  ⟨by with_unfolding_all decide,
   c8_list_equals_all pctxTrivial c8w 0 c8wsec ["A 1"] false
     (by with_unfolding_all decide) (by with_unfolding_all decide)
     (by with_unfolding_all decide) (by with_unfolding_all decide)⟩

def c8sel : SectionIn :=
  ⟨"Select Two", some ⟨some "LIST", none, none, none, none, none, none⟩,
    [⟨[⟨"A 1", some 3⟩]⟩, ⟨[⟨"B 1", some 3⟩]⟩, ⟨[⟨"C 1", some 3⟩]⟩]⟩

def c8dL : Detail := ⟨[c8sel], []⟩

/-- C8 (counterexample): the claim demands LIST = ALL regardless of the
section's name, but a LIST section named `Select Two` (not pooled under any
cross-list rule) is coerced to `COUNT{min:2, max:2}`: it contributes 2
required atoms, while the same section typed ALL contributes one atom per
item, here 3, so the results differ. -/
theorem c8_counterexample :
    sectionIsInCrossList c8dL "Select Two" = false ∧
    ruleTypeOf (c8sel.rule.bind (fun r => r.type)) = "LIST" ∧
    (evaluateProgram pctxTrivial c8dL [] false).requiredItems = 2 ∧
    (evaluateProgram pctxTrivial (detailSetTypeAll c8dL 0) []
      false).requiredItems = 3 ∧
    evaluateProgram pctxTrivial c8dL [] false ≠
      evaluateProgram pctxTrivial (detailSetTypeAll c8dL 0) [] false := by
  with_unfolding_all decide

end ButteMAP

